import Mathlib

/-!
Verification development for the streaming response normalizer of the
UI_Color_Bot repository (`NeMo-Agent-Toolkit-UI/pages/api/chat.ts`).

The TypeScript source is shallowly embedded: strings are `List Char`,
the backend byte stream is a list of already-decoded text chunks,
`JSON.parse` is modelled by an executable recursive-descent parser
(`parseJson`), and the `ReadableStream` controller and reader-lock
behaviour of `processGenerateStream` are modelled by a pure state-passing
interpreter (`runGen`) whose output is the ordered list of enqueued
chunks.
-/

namespace ColorBot

/-! ## Basic character and string helpers -/

/-- Whitespace characters accepted by the JSON grammar (RFC 8259):
space, tab, line feed, carriage return. -/
def isJsonWs (c : Char) : Bool :=
  c = ' ' || c = '\t' || c = '\n' || c = '\r'

/-- Whitespace removed by JavaScript `String.prototype.trim` (ASCII part:
space, tab, LF, CR, vertical tab, form feed). -/
def isJsWs (c : Char) : Bool :=
  c = ' ' || c = '\t' || c = '\n' || c = '\r' || c = '\x0b' || c = '\x0c'

/-- `s.trim()` of JavaScript: strip whitespace from both ends. -/
def trimStr (s : List Char) : List Char :=
  ((s.dropWhile isJsWs).reverse.dropWhile isJsWs).reverse

/-- `s.startsWith(pat)` of JavaScript. -/
def startsWithStr : List Char → List Char → Bool
  | [], _ => true
  | _ :: _, [] => false
  | p :: ps, c :: cs => p == c && startsWithStr ps cs

/-- Index of the first occurrence of the pattern `pat` in `s`
(JavaScript `s.indexOf(pat)` restricted to a found/not-found answer). -/
def idxOfSeq (pat : List Char) : List Char → Option Nat
  | [] => if startsWithStr pat [] then some 0 else none
  | c :: r =>
    if startsWithStr pat (c :: r) then some 0
    else (idxOfSeq pat r).map (· + 1)

/-- `s.includes(pat)` of JavaScript. -/
def containsSeq (pat s : List Char) : Bool :=
  (idxOfSeq pat s).isSome

/-! ## Line buffer (chat.ts lines 90–95)

```
const chunk = decoder.decode(value, { stream: true });
buffer += chunk;
const lines = buffer.split('\n');
buffer = lines.pop() || '';
```

`splitNl` is `String.prototype.split('\n')`: it always returns at least
one segment, segments contain no terminator. -/

/-- `split('\n')` as (first segment, remaining segments). -/
def splitNlF : List Char → List Char × List (List Char)
  | [] => ([], [])
  | c :: cs =>
    let r := splitNlF cs
    if c = '\n' then ([], r.1 :: r.2) else (c :: r.1, r.2)

/-- `s.split('\n')` — the non-empty list of newline-separated segments. -/
def splitNl (s : List Char) : List (List Char) :=
  (splitNlF s).1 :: (splitNlF s).2

/-- Inverse of `splitNl`: re-join segments with `'\n'`. -/
def joinNl : List (List Char) → List Char
  | [] => []
  | [s] => s
  | s :: ss => s ++ '\n' :: joinNl ss

/-- One buffer update: append the chunk to the leftover, split on the
newline character, return the complete lines and keep the last segment
as the new leftover (chat.ts lines 91–95). -/
def bufferFeed (leftover chunk : List Char) : List (List Char) × List Char :=
  let segs := splitNl (leftover ++ chunk)
  (segs.dropLast, segs.getLastD [])

/-- Feed a sequence of chunks through the buffer logic, collecting all
complete lines in order together with the final leftover. -/
def bufferRun : List (List Char) → List Char → List (List Char) × List Char
  | [], buf => ([], buf)
  | c :: cs, buf =>
    let fed := bufferFeed buf c
    let rest := bufferRun cs fed.2
    (fed.1 ++ rest.1, rest.2)

/-! ## JSON values

`JSON.parse` produces an arbitrary JavaScript value; numbers keep their
source lexeme (the claims never depend on float rounding, only on
zero/non-zero truthiness). Object fields are kept in source order;
`jGet` returns the last binding for a key, matching JavaScript object
semantics under duplicate keys. -/

inductive Json where
  | null
  | boolean (b : Bool)
  | num (lexeme : List Char)
  | str (s : List Char)
  | arr (elems : List Json)
  | obj (fields : List (List Char × Json))

/-- Last binding wins, as for duplicate keys in `JSON.parse`. -/
def lookupLast (k : List Char) : List (List Char × Json) → Option Json
  | [] => none
  | (k', v) :: rest =>
    match lookupLast k rest with
    | some r => some r
    | none => if k' = k then some v else none

/-- Property access `o?.[k]` on a parsed value: `undefined` (here `none`)
unless the value is an object with the field. -/
def jGet (j : Json) (k : List Char) : Option Json :=
  match j with
  | .obj fs => lookupLast k fs
  | _ => none

/-- Index access `a?.[n]`. -/
def jIdx (j : Json) (n : Nat) : Option Json :=
  match j with
  | .arr xs => xs.get? n
  | _ => none

/-- A JSON number is falsy exactly when its mantissa digits are all zero
(`0`, `-0`, `0.000`, `0e9`, …). -/
def numZeroLex (lex : List Char) : Bool :=
  (lex.takeWhile (fun c => !(c = 'e' || c = 'E'))).all
    (fun c => c = '0' || c = '-' || c = '.')

/-- JavaScript truthiness of a parsed JSON value. -/
def jTruthy : Json → Bool
  | .null => false
  | .boolean b => b
  | .num lex => !numZeroLex lex
  | .str s => !s.isEmpty
  | .arr _ => true
  | .obj _ => true

/-- The value of a JavaScript `a || b || …` chain over optional-chain
accesses, as used by the payload extractors: the first candidate that is
present and truthy (`none` when every candidate is absent or falsy — the
callers only ever consume a truthy result). -/
def firstTruthy : List (Option Json) → Option Json
  | [] => none
  | some j :: os => if jTruthy j then some j else firstTruthy os
  | none :: os => firstTruthy os

/-! ## JSON.parse model

Executable recursive-descent parser for RFC 8259 JSON, the grammar
accepted by `JSON.parse`. Strings reject unescaped control characters;
numbers reject leading zeros; the whole input must be consumed up to
trailing whitespace. The mutual recursion is fuelled; every recursive
call strictly consumes input, so the fuel chosen in `parseJson`
(`2 * length + 4`) can never be exhausted on any input. -/

def skipWs (s : List Char) : List Char := s.dropWhile isJsonWs

def isDigitCh (c : Char) : Bool := '0' ≤ c && c ≤ '9'

def hexVal (c : Char) : Option Nat :=
  let n := c.toNat
  if 48 ≤ n && n ≤ 57 then some (n - 48)
  else if 97 ≤ n && n ≤ 102 then some (n - 87)
  else if 65 ≤ n && n ≤ 70 then some (n - 55)
  else none

/-- Cons a decoded character onto the result of a string-body parse. -/
def mapCons (c : Char) : Option (List Char × List Char) → Option (List Char × List Char)
  | some (s, rest) => some (c :: s, rest)
  | none => none

/-- Decoding of a single-character escape sequence (`\\x`); `\\u` is
handled separately. -/
def escDecode (e : Char) : Option Char :=
  if e = '"' then some '"'
  else if e = '\\' then some '\\'
  else if e = '/' then some '/'
  else if e = 'b' then some (Char.ofNat 8)
  else if e = 'f' then some (Char.ofNat 12)
  else if e = 'n' then some '\n'
  else if e = 'r' then some '\r'
  else if e = 't' then some '\t'
  else none

/-- Parse a JSON string body (after the opening quote) with the given
fuel, returning the decoded contents and the input after the closing
quote. Unescaped control characters are rejected, as by `JSON.parse`. -/
def pStr : Nat → List Char → Option (List Char × List Char)
  | 0, _ => none
  | _ + 1, [] => none
  | f + 1, c :: r =>
    if c = '"' then some ([], r)
    else if c = '\\' then
      match r with
      | 'u' :: a :: b :: c2 :: d :: r3 =>
        match hexVal a, hexVal b, hexVal c2, hexVal d with
        | some ha, some hb, some hc, some hd =>
          mapCons (Char.ofNat (((ha * 16 + hb) * 16 + hc) * 16 + hd)) (pStr f r3)
        | _, _, _, _ => none
      | e :: r2 =>
        match escDecode e with
        | some ch => mapCons ch (pStr f r2)
        | none => none
      | [] => none
    else if c.toNat < 32 then none
    else mapCons c (pStr f r)

/-- Optional fraction part of a JSON number. -/
def pFrac (r : List Char) : Option (List Char × List Char) :=
  match r with
  | '.' :: r1 =>
    let ds := r1.takeWhile isDigitCh
    if ds.isEmpty then none else some ('.' :: ds, r1.dropWhile isDigitCh)
  | _ => some ([], r)

/-- Optional exponent part of a JSON number. -/
def pExp (r : List Char) : Option (List Char × List Char) :=
  match r with
  | e :: r1 =>
    if e = 'e' || e = 'E' then
      let (sg, r2) :=
        match r1 with
        | '+' :: r2 => (['+'], r2)
        | '-' :: r2 => (['-'], r2)
        | _ => (([] : List Char), r1)
      let ds := r2.takeWhile isDigitCh
      if ds.isEmpty then none
      else some (e :: sg ++ ds, r2.dropWhile isDigitCh)
    else some ([], r)
  | [] => some ([], r)

/-- Integer part of a JSON number: `0`, or a nonzero digit followed by
digits (leading zeros rejected). -/
def pInt (s : List Char) : Option (List Char × List Char) :=
  match s with
  | '0' :: r => some (['0'], r)
  | c :: r =>
    if isDigitCh c && !(c = '0') then
      some (c :: r.takeWhile isDigitCh, r.dropWhile isDigitCh)
    else none
  | [] => none

/-- Digits of a JSON number after the optional minus sign:
integer part, then optional fraction and exponent. -/
def pNumBody (sg s1 : List Char) : Option (List Char × List Char) :=
  match pInt s1 with
  | none => none
  | some (ip, r1) =>
    match pFrac r1 with
    | none => none
    | some (fp, r2) =>
      match pExp r2 with
      | none => none
      | some (ep, r3) => some (sg ++ ip ++ fp ++ ep, r3)

/-- Parse a JSON number, returning its source lexeme. -/
def pNum (s : List Char) : Option (List Char × List Char) :=
  match s with
  | '-' :: r => pNumBody ['-'] r
  | _ => pNumBody [] s

mutual

/-- Parse one JSON value starting at a non-whitespace position,
dispatching on the first character. -/
def pVal : Nat → List Char → Option (Json × List Char)
  | 0, _ => none
  | _ + 1, [] => none
  | f + 1, c :: r =>
    if c = '{' then
      match skipWs r with
      | '}' :: r2 => some (.obj [], r2)
      | r1 =>
        match pMembers f r1 with
        | some (fs, rest) => some (.obj fs, rest)
        | none => none
    else if c = '[' then
      match skipWs r with
      | ']' :: r2 => some (.arr [], r2)
      | r1 =>
        match pElems f r1 with
        | some (es, rest) => some (.arr es, rest)
        | none => none
    else if c = '"' then
      match pStr (r.length + 1) r with
      | some (cs, rest) => some (.str cs, rest)
      | none => none
    else if c = 't' then
      match r with
      | 'r' :: 'u' :: 'e' :: rest => some (.boolean true, rest)
      | _ => none
    else if c = 'f' then
      match r with
      | 'a' :: 'l' :: 's' :: 'e' :: rest => some (.boolean false, rest)
      | _ => none
    else if c = 'n' then
      match r with
      | 'u' :: 'l' :: 'l' :: rest => some (.null, rest)
      | _ => none
    else
      match pNum (c :: r) with
      | some (lex, rest) => some (.num lex, rest)
      | none => none

/-- Parse the members of a JSON object, positioned at the first key. -/
def pMembers : Nat → List Char → Option (List (List Char × Json) × List Char)
  | 0, _ => none
  | _ + 1, [] => none
  | f + 1, c :: r =>
    if c = '"' then
      match pStr (r.length + 1) r with
      | some (key, r2) =>
        match skipWs r2 with
        | ':' :: r3 =>
          match pVal f (skipWs r3) with
          | some (v, r4) =>
            match skipWs r4 with
            | ',' :: r5 =>
              match pMembers f (skipWs r5) with
              | some (fs, r6) => some ((key, v) :: fs, r6)
              | none => none
            | '}' :: r5 => some ([(key, v)], r5)
            | _ => none
          | none => none
        | _ => none
      | none => none
    else none

/-- Parse the elements of a JSON array, positioned at the first element. -/
def pElems : Nat → List Char → Option (List Json × List Char)
  | 0, _ => none
  | f + 1, s =>
    match pVal f s with
    | some (v, r) =>
      match skipWs r with
      | ',' :: r2 =>
        match pElems f (skipWs r2) with
        | some (es, r3) => some (v :: es, r3)
        | none => none
      | ']' :: r2 => some ([v], r2)
      | _ => none
    | none => none

end

/-- `JSON.parse`: parse a complete JSON document, `none` on any syntax
error (the model of every `try { JSON.parse(…) } catch {}` in the
source). The fuel bound is unreachable: the mutual parsers consume at
least one input character per two fuel ticks. -/
def parseJson (s : List Char) : Option Json :=
  let s1 := skipWs s
  match pVal (2 * s1.length + 4) s1 with
  | some (v, rest) => if (skipWs rest).isEmpty then some v else none
  | none => none

/-! ## JSON.stringify model

Needed to render the serialized intermediate-step marker
(`<intermediatestep>${JSON.stringify(msg)}</intermediatestep>`,
chat.ts line 140). Numbers are rendered by their stored lexeme. -/

/-- String escaping of `JSON.stringify`. -/
def escChar (c : Char) : List Char :=
  if c = '"' then ['\\', '"']
  else if c = '\\' then ['\\', '\\']
  else if c = '\n' then ['\\', 'n']
  else if c = '\r' then ['\\', 'r']
  else if c = '\t' then ['\\', 't']
  else if c.toNat = 8 then ['\\', 'b']
  else if c.toNat = 12 then ['\\', 'f']
  else if c.toNat < 32 then
    ['\\', 'u', '0', '0',
      (if c.toNat / 16 = 1 then '1' else '0'),
      Char.ofNat (if c.toNat % 16 < 10 then '0'.toNat + c.toNat % 16
                  else 'a'.toNat + c.toNat % 16 - 10)]
  else [c]

mutual

/-- `JSON.stringify` of a parsed value (no spacing, insertion order). -/
def stringifyJson : Json → List Char
  | .null => "null".toList
  | .boolean true => "true".toList
  | .boolean false => "false".toList
  | .num lex => lex
  | .str s => '"' :: (s.map escChar).flatten ++ ['"']
  | .arr xs => '[' :: stringifyArr xs ++ [']']
  | .obj fs => '{' :: stringifyObj fs ++ ['}']

def stringifyArr : List Json → List Char
  | [] => []
  | [x] => stringifyJson x
  | x :: xs => stringifyJson x ++ ',' :: stringifyArr xs

def stringifyObj : List (List Char × Json) → List Char
  | [] => []
  | [(k, v)] => '"' :: (k.map escChar).flatten ++ '"' :: ':' :: stringifyJson v
  | (k, v) :: fs =>
    '"' :: (k.map escChar).flatten ++ '"' :: ':' :: stringifyJson v
      ++ ',' :: stringifyObj fs

end

/-- Decimal rendering of a `Nat` (the `index` counter in the serialized
intermediate-step record). -/
def natLexAux : Nat → List Char → List Char
  | 0, acc => acc
  | n + 1, acc =>
    natLexAux ((n + 1) / 10) (Char.ofNat ('0'.toNat + (n + 1) % 10) :: acc)
termination_by n _ => n
decreasing_by exact Nat.div_lt_self (Nat.succ_pos _) (by decide)

def natLex (n : Nat) : List Char :=
  if n = 0 then ['0'] else natLexAux n []

/-! ## Payload extractors -/

/-- `parsed?.choices?.[0]?.message?.content`. -/
def choicesMsg (p : Json) : Option Json :=
  (((jGet p "choices".toList).bind (jIdx · 0)).bind
    (jGet · "message".toList)).bind (jGet · "content".toList)

/-- `parsed?.choices?.[0]?.delta?.content`. -/
def choicesDelta (p : Json) : Option Json :=
  (((jGet p "choices".toList).bind (jIdx · 0)).bind
    (jGet · "delta".toList)).bind (jGet · "content".toList)

/-- Extraction chain of the generate-stream normalizer
(chat.ts lines 106–111):
`parsed?.value || parsed?.output || parsed?.answer ||
 parsed?.choices?.[0]?.message?.content ||
 parsed?.choices?.[0]?.delta?.content`. -/
def extractGenContent (p : Json) : Option Json :=
  firstTruthy [jGet p "value".toList, jGet p "output".toList,
    jGet p "answer".toList, choicesMsg p, choicesDelta p]

/-- End-of-stream fallback extraction chain (chat.ts lines 150–154):
`parsed?.value || parsed?.output || parsed?.answer ||
 parsed?.choices?.[0]?.message?.content`. -/
def fallbackExtract (p : Json) : Option Json :=
  firstTruthy [jGet p "value".toList, jGet p "output".toList,
    jGet p "answer".toList, choicesMsg p]

/-- `payload?.k || dflt` used when building the intermediate record. -/
def jOr (o : Option Json) (dflt : Json) : Json :=
  match o with
  | some j => if jTruthy j then j else dflt
  | none => dflt

/-- The canonical intermediate-step record built by the encoder
(chat.ts lines 126–139), as the JSON object that is stringified;
field order is the insertion order of the object literal. -/
def intermediateMessage (payload : Json) (counter : Nat) : Json :=
  .obj [
    ("id".toList, jOr (jGet payload "id".toList) (.str [])),
    ("status".toList, jOr (jGet payload "status".toList) (.str "in_progress".toList)),
    ("error".toList, jOr (jGet payload "error".toList) (.str [])),
    ("type".toList, .str "system_intermediate".toList),
    ("parent_id".toList, jOr (jGet payload "parent_id".toList) (.str "default".toList)),
    ("intermediate_parent_id".toList,
      jOr (jGet payload "intermediate_parent_id".toList) (.str "default".toList)),
    ("content".toList, .obj [
      ("name".toList, jOr (jGet payload "name".toList) (.str "Step".toList)),
      ("payload".toList, jOr (jGet payload "payload".toList) (.str "No details".toList))]),
    ("time_stamp".toList, jOr (jGet payload "time_stamp".toList) (.str "default".toList)),
    ("index".toList, .num (natLex counter))]

/-! ## The generate-stream normalizer (processGenerateStream) -/

/-- Protocol constants. -/
def dataTagL : List Char := "data: ".toList
def doneTokL : List Char := "[DONE]".toList
def imTagL : List Char := "intermediate_data: ".toList
def tagOpenL : List Char := "<intermediatestep>".toList
def tagCloseL : List Char := "</intermediatestep>".toList

/-- One chunk enqueued on the output stream, tagged with its provenance;
`renderEvt` recovers the exact text that `controller.enqueue` encodes. -/
inductive OutEvt where
  | dataText (s : List Char)
  | tagged (line : List Char)
  | step (idx : Nat) (payload : Json)
  | fallbackText (s : List Char)

/-- The text actually enqueued for an output event. -/
def renderEvt : OutEvt → List Char
  | .dataText s => s
  | .tagged line => line
  | .step idx payload =>
    tagOpenL ++ stringifyJson (intermediateMessage payload idx) ++ tagCloseL
  | .fallbackText s => s

/-- `line.split('intermediate_data: ')[1]`: the text after the leading
19-character prefix, cut at the next occurrence of the separator. -/
def imPayload (line : List Char) : List Char :=
  let r := line.drop 19
  match idxOfSeq imTagL r with
  | some i => r.take i
  | none => r

/-- Result of processing one complete line. -/
inductive LineRes where
  | events (es : List OutEvt) (counter : Nat)
  | terminate

/-- Processing of one complete line by the generate-stream normalizer
(chat.ts lines 97–143): the if/else-if chain over
`data: ` / inline-tag / `intermediate_data: ` lines. -/
def stepLine (enableIS : Bool) (counter : Nat) (line : List Char) : LineRes :=
  if startsWithStr dataTagL line then
    let d := line.drop 5
    if trimStr d = doneTokL then .terminate
    else
      match parseJson d with
      | some p =>
        match extractGenContent p with
        | some (.str s) => .events [.dataText s] counter
        | _ => .events [] counter
      | none => .events [] counter
  else if containsSeq tagOpenL line && containsSeq tagCloseL line && enableIS then
    .events [.tagged line] counter
  else if startsWithStr imTagL line then
    match parseJson (imPayload line) with
    | some p => .events [.step counter p] (counter + 1)
    | none => .events [] counter
  else .events [] counter

/-- Mutable state of one `processGenerateStream` invocation:
`buffer`, `streamContent`, `counter` (chat.ts lines 78–81), and the
ordered list of chunks enqueued so far. (`finalAnswerSent` is only ever
assigned inside the `finally` block, after its sole read, so it carries
no state between steps.) -/
structure GenSt where
  buffer : List Char
  streamContent : List Char
  counter : Nat
  out : List OutEvt

/-- Run the inner `for (const line of lines)` loop; `true` means the
terminator sentinel was hit (`controller.close(); return`), skipping the
remaining lines. -/
def runLines (enableIS : Bool) (st : GenSt) : List (List Char) → GenSt × Bool
  | [] => (st, false)
  | l :: ls =>
    match stepLine enableIS st.counter l with
    | .terminate => (st, true)
    | .events es c' =>
      runLines enableIS { st with counter := c', out := st.out ++ es } ls

/-- Process one decoded chunk (chat.ts lines 90–144): append to buffer
and accumulator, split the buffer into complete lines keeping the last
segment, then process each line. -/
def processChunk (enableIS : Bool) (st : GenSt) (chunk : List Char) : GenSt × Bool :=
  let segs := splitNl (st.buffer ++ chunk)
  runLines enableIS
    { buffer := segs.getLastD [],
      streamContent := st.streamContent ++ chunk,
      counter := st.counter,
      out := st.out } segs.dropLast

/-- Observable result of one normalizer invocation. -/
structure RunRes where
  output : List OutEvt
  streamContent : List Char
  closed : Bool
  released : Bool

/-- The `finally` block (chat.ts lines 146–163). `closedAlready` is true
when the terminator path already executed `controller.close()` at line
101: in that case the fallback `controller.enqueue` throws a `TypeError`
that the surrounding `catch {}` swallows (so nothing is emitted), and
the unconditional `controller.close()` at line 161 then throws, so
`reader?.releaseLock()` at line 162 is never reached. On the other exit
paths the fallback may emit once, the stream closes, and the lock is
released. (`finalAnswerSent` is still `false` here on every path: the
loop never assigns it.) -/
def finalizeGen (closedAlready : Bool) (st : GenSt) : RunRes :=
  let fb : List OutEvt :=
    match parseJson st.streamContent with
    | some p =>
      match fallbackExtract p with
      | some (.str s) =>
        if closedAlready then [] else [.fallbackText (trimStr s)]
      | _ => []
    | none => []
  { output := st.out ++ fb,
    streamContent := st.streamContent,
    closed := true,
    released := !closedAlready }

/-- One event delivered by `reader.read()`: a decoded chunk, or a read
error (a rejected promise, which aborts the `while` loop into the
`finally` block). The list ending models `done: true`. -/
inductive ReadEvt where
  | chunk (s : List Char)
  | readError

/-- The read loop of `processGenerateStream` (chat.ts lines 86–145). -/
def runGenGo (enableIS : Bool) (st : GenSt) : List ReadEvt → RunRes
  | [] => finalizeGen false st
  | .readError :: _ => finalizeGen false st
  | .chunk s :: rest =>
    match processChunk enableIS st s with
    | (st', true) => finalizeGen true st'
    | (st', false) => runGenGo enableIS st' rest

/-- `processGenerateStream`: the whole normalizer invocation over the
backend's stream of read events. -/
def runGen (enableIS : Bool) (evts : List ReadEvt) : RunRes :=
  runGenGo enableIS ⟨[], [], 0, []⟩ evts

/-! ## The chat-stream normalizer (processChatStream, chat.ts 168–235)

Only the line dispatch differs from the generate-stream normalizer:
the extraction chain is `choices[0].message.content ||
choices[0].delta.content` with no `typeof` check, there is no
accumulator/fallback, and `intermediate_data: ` lines are handled only
when `additionalProps.enableIntermediateSteps` is set. -/

/-- Coercion applied by `TextEncoder.encode` to a truthy non-string
(`String(content)`). Containers are approximated (the claims never
exercise them); primitives are exact. -/
def jsCoerce : Json → List Char
  | .str s => s
  | .num lex => lex
  | .boolean true => "true".toList
  | .boolean false => "false".toList
  | .null => "null".toList
  | .arr _ => []
  | .obj _ => "[object Object]".toList

/-- Processing of one complete line by the chat-stream normalizer
(chat.ts lines 186–226). -/
def stepLineChat (enableIS : Bool) (counter : Nat) (line : List Char) : LineRes :=
  if startsWithStr dataTagL line then
    let d := line.drop 5
    if trimStr d = doneTokL then .terminate
    else
      match parseJson d with
      | some p =>
        match firstTruthy [choicesMsg p, choicesDelta p] with
        | some j => .events [.dataText (jsCoerce j)] counter
        | none => .events [] counter
      | none => .events [] counter
  else if startsWithStr imTagL line && enableIS then
    match parseJson (imPayload line) with
    | some p => .events [.step counter p] (counter + 1)
    | none => .events [] counter
  else .events [] counter

/-! ## The non-streaming chat path (processChat, chat.ts 57–74) -/

/-- Body text returned by `processChat` for a backend body `raw`:
`parsed?.output || parsed?.answer || parsed?.value ||
 (Array.isArray(parsed?.choices) ? parsed.choices[0]?.message?.content : null)
 || parsed || data`, stringified unless already a string, with the raw
text returned on parse failure. -/
def chatContent (raw : List Char) : List Char :=
  match parseJson raw with
  | none => raw
  | some parsed =>
    match firstTruthy [jGet parsed "output".toList, jGet parsed "answer".toList,
        jGet parsed "value".toList, choicesMsg parsed] with
    | some (.str s) => s
    | some j => stringifyJson j
    | none =>
      if jTruthy parsed then
        match parsed with
        | .str s => s
        | _ => stringifyJson parsed
      else raw

/-! ## Spec-side variant for the prefix-slicing claim (C10)

Modelled from the spec: identical to `stepLine` except that the
data-event payload strips the full 6-character `data: ` prefix
(`line.slice(6)`) instead of the source's `line.slice(5)`. -/

def stepLineDropSix (enableIS : Bool) (counter : Nat) (line : List Char) : LineRes :=
  if startsWithStr dataTagL line then
    let d := line.drop 6
    if trimStr d = doneTokL then .terminate
    else
      match parseJson d with
      | some p =>
        match extractGenContent p with
        | some (.str s) => .events [.dataText s] counter
        | _ => .events [] counter
      | none => .events [] counter
  else if containsSeq tagOpenL line && containsSeq tagCloseL line && enableIS then
    .events [.tagged line] counter
  else if startsWithStr imTagL line then
    match parseJson (imPayload line) with
    | some p => .events [.step counter p] (counter + 1)
    | none => .events [] counter
  else .events [] counter

/-! ## Observables used in claim statements -/

/-- The sequence index carried by an encoded intermediate-step marker. -/
def stepIdx : OutEvt → Option Nat
  | .step i _ => some i
  | _ => none

/-- Recognizer for the fallback-recovery emission. -/
def isFallbackEvt : OutEvt → Bool
  | .fallbackText _ => true
  | _ => false

/-- `ℓ` occurs in `sc` as a complete line that begins with `data: `:
`sc = A ++ ℓ ++ '\n' :: B` where `A` is empty or ends with a newline. -/
def DataLineAt (sc : List Char) : Prop :=
  ∃ A ℓ B, sc = A ++ ℓ ++ '\n' :: B ∧ startsWithStr dataTagL ℓ = true ∧
    (A = [] ∨ A.getLast? = some '\n')

/-- Adjacent-character condition: the letter `d` never directly follows
a line feed. Any text accepted by `parseJson` satisfies it character by
character, which is what makes a stream containing a complete
`data: `-prefixed line unparseable as one JSON document. -/
def okPair (a b : Char) : Prop := a = '\n' → b ≠ 'd'

/-- A stretch of parser-consumed input: no `'\n'` is immediately
followed by `'d'`, and the stretch does not start with `'d'`. -/
def Piece (c : List Char) : Prop :=
  c.Chain' okPair ∧ ∀ h ∈ c.head?, h ≠ 'd'

/-! # Lemmas and theorems -/

/-! ## Line-buffer lemmas -/

theorem splitNl_nil : splitNl [] = [[]] := rfl

theorem splitNl_cons (c : Char) (cs : List Char) :
    splitNl (c :: cs) =
      if c = '\n' then [] :: splitNl cs
      else (c :: (splitNlF cs).1) :: (splitNlF cs).2 := by
  by_cases h : c = '\n' <;> simp [splitNl, splitNlF, h]

theorem mem_splitNl_no_nl : ∀ (l : List Char), ∀ s ∈ splitNl l, '\n' ∉ s := by
  intro l
  induction l with
  | nil => intro s hs; simp [splitNl, splitNlF] at hs; simp [hs]
  | cons c cs ih =>
    have hmem : ∀ s, s = (splitNlF cs).1 ∨ s ∈ (splitNlF cs).2 → '\n' ∉ s := by
      intro s hs
      exact ih s (by simpa [splitNl] using hs)
    intro s hs
    rw [splitNl_cons] at hs
    by_cases h : c = '\n'
    · simp [h, splitNl] at hs
      rcases hs with h1 | h1 | h1
      · simp [h1]
      · exact hmem s (Or.inl h1)
      · exact hmem s (Or.inr h1)
    · simp [h] at hs
      rcases hs with h1 | h1
      · subst h1
        intro hmemc
        rcases List.mem_cons.1 hmemc with h2 | h2
        · exact h h2.symm
        · exact hmem _ (Or.inl rfl) h2
      · exact hmem s (Or.inr h1)

theorem splitNl_no_nl (l : List Char) (h : '\n' ∉ l) : splitNl l = [l] := by
  induction l with
  | nil => rfl
  | cons c cs ih =>
    have hc : ¬ c = '\n' := fun hc => h (by simp [hc])
    have hcs : '\n' ∉ cs := fun hm => h (List.mem_cons_of_mem _ hm)
    have := ih hcs
    rw [splitNl_cons]
    simp only [hc, if_false]
    have h1 : (splitNlF cs).1 = cs := by
      have : (splitNlF cs).1 :: (splitNlF cs).2 = [cs] := this
      exact (List.cons.injEq _ _ _ _ ▸ this).1
    have h2 : (splitNlF cs).2 = [] := by
      have : (splitNlF cs).1 :: (splitNlF cs).2 = [cs] := this
      exact (List.cons.injEq _ _ _ _ ▸ this).2
    rw [h1, h2]

theorem joinNl_splitNl : ∀ (l : List Char), joinNl (splitNl l) = l := by
  intro l
  induction l with
  | nil => rfl
  | cons c cs ih =>
    rw [splitNl_cons]
    by_cases h : c = '\n'
    · subst h
      simp only [if_pos rfl]
      have : splitNl cs = (splitNlF cs).1 :: (splitNlF cs).2 := rfl
      rw [this] at ih
      simpa [joinNl] using congrArg (fun t => '\n' :: t) ih
    · simp only [h, if_false]
      have hsp : splitNl cs = (splitNlF cs).1 :: (splitNlF cs).2 := rfl
      rw [hsp] at ih
      cases h2 : (splitNlF cs).2 with
      | nil =>
        rw [h2] at ih
        simp only [joinNl] at ih ⊢
        rw [ih]
      | cons z zs =>
        rw [h2] at ih
        simp only [joinNl] at ih ⊢
        rw [List.cons_append, ih]

theorem splitNl_append (a b : List Char) :
    splitNl (a ++ b) =
      (splitNl a).dropLast ++ ((splitNl a).getLastD [] ++ (splitNlF b).1) :: (splitNlF b).2 := by
  induction a with
  | nil => rfl
  | cons c a' ih =>
    rw [List.cons_append, splitNl_cons, splitNl_cons]
    by_cases h : c = '\n'
    · simp only [h, if_pos rfl]
      rw [ih]
      have hne : splitNl a' = (splitNlF a').1 :: (splitNlF a').2 := rfl
      rw [hne]
      simp [splitNl, List.getLastD_cons]
    · simp only [h, if_false]
      have hsp : splitNl a' = (splitNlF a').1 :: (splitNlF a').2 := rfl
      rw [hsp] at ih
      cases h2 : (splitNlF a').2 with
      | nil =>
        rw [h2] at ih
        have : splitNlF (a' ++ b) =
            ((splitNlF a').1 ++ (splitNlF b).1, (splitNlF b).2) := by
          have hx : splitNl (a' ++ b) =
              ((splitNlF a').1 ++ (splitNlF b).1) :: (splitNlF b).2 := by
            simpa [List.getLastD_cons] using ih
          have : (splitNlF (a' ++ b)).1 :: (splitNlF (a' ++ b)).2 =
              ((splitNlF a').1 ++ (splitNlF b).1) :: (splitNlF b).2 := hx
          exact Prod.ext (List.cons.injEq _ _ _ _ ▸ this).1
            (List.cons.injEq _ _ _ _ ▸ this).2
        rw [this]
        simp [splitNl, h2, List.getLastD_cons]
      | cons z zs =>
        rw [h2] at ih
        have hx : splitNl (a' ++ b) =
            (splitNlF a').1 :: ((z :: zs).dropLast ++
              (((z :: zs).getLastD (splitNlF a').1 ++ (splitNlF b).1) :: (splitNlF b).2)) := by
          simpa [List.getLastD_cons] using ih
        have h1 : (splitNlF (a' ++ b)).1 = (splitNlF a').1 := by
          have := hx
          exact (List.cons.injEq _ _ _ _ ▸ this).1
        have h2' : (splitNlF (a' ++ b)).2 =
            (z :: zs).dropLast ++
              (((z :: zs).getLastD (splitNlF a').1 ++ (splitNlF b).1) :: (splitNlF b).2) := by
          exact (List.cons.injEq _ _ _ _ ▸ hx).2
        simp only [List.dropLast_cons₂, List.getLastD_cons, h1, h2', List.cons_append]

theorem getLastD_cons_irrel : ∀ (t : List (List Char)) (y d d' : List Char),
    (y :: t).getLastD d = (y :: t).getLastD d' := by
  intro t
  induction t with
  | nil => intro y d d'; simp [List.getLastD_cons]
  | cons z zs _ => intro y d d'; simp only [List.getLastD_cons]

theorem getLastD_append_cons (xs : List (List Char)) (y : List Char)
    (ys : List (List Char)) (d : List Char) :
    (xs ++ y :: ys).getLastD d = (y :: ys).getLastD d := by
  induction xs generalizing d with
  | nil => rfl
  | cons x xs ih =>
    rw [List.cons_append, List.getLastD_cons, ih]
    exact getLastD_cons_irrel ys y x d

theorem splitNl_ne_nil (l : List Char) : splitNl l ≠ [] := by
  simp [splitNl]

theorem getLastD_splitNl_mem (l : List Char) :
    (splitNl l).getLastD [] ∈ splitNl l := by
  have : ∀ (t : List (List Char)) (h d : List Char), (h :: t).getLastD d ∈ h :: t := by
    intro t
    induction t with
    | nil => intro h d; simp [List.getLastD_cons]
    | cons z zs ih =>
      intro h d
      rw [List.getLastD_cons]
      exact List.mem_cons_of_mem _ (ih z h)
  exact this _ _ _

theorem no_nl_buffer (l : List Char) : '\n' ∉ (splitNl l).getLastD [] :=
  mem_splitNl_no_nl l _ (getLastD_splitNl_mem l)

/-- Splitting after a newline-free leftover. -/
theorem splitNl_no_nl_append (w v : List Char) (hw : '\n' ∉ w) :
    splitNl (w ++ v) = (w ++ (splitNlF v).1) :: (splitNlF v).2 := by
  have h := splitNl_append w v
  rw [splitNl_no_nl w hw] at h
  simpa using h

/-- The accumulated stream splits as the already-extracted complete
lines followed by the split of (leftover ++ new chunk). -/
theorem splitNl_accum (sc chunk : List Char) :
    splitNl (sc ++ chunk) =
      (splitNl sc).dropLast ++ splitNl ((splitNl sc).getLastD [] ++ chunk) := by
  rw [splitNl_append sc chunk,
    splitNl_no_nl_append _ chunk (no_nl_buffer sc)]

theorem bufferRun_eq (chunks : List (List Char)) (buf : List Char)
    (hb : '\n' ∉ buf) :
    bufferRun chunks buf =
      ((splitNl (buf ++ chunks.flatten)).dropLast,
        (splitNl (buf ++ chunks.flatten)).getLastD []) := by
  induction chunks generalizing buf with
  | nil =>
    simp only [bufferRun, List.flatten_nil, List.append_nil]
    rw [splitNl_no_nl buf hb]
    rfl
  | cons c cs ih =>
    simp only [bufferRun, bufferFeed, List.flatten_cons]
    have hb2 : '\n' ∉ (splitNl (buf ++ c)).getLastD [] := no_nl_buffer _
    rw [ih _ hb2]
    have hassoc : buf ++ (c ++ cs.flatten) = (buf ++ c) ++ cs.flatten := by
      simp
    rw [hassoc, splitNl_accum (buf ++ c) cs.flatten]
    rcases hT : splitNl ((splitNl (buf ++ c)).getLastD [] ++ cs.flatten) with _ | ⟨y, ys⟩
    · exact absurd hT (splitNl_ne_nil _)
    · rw [List.dropLast_append_cons, getLastD_append_cons]

/-- The complete lines plus the final leftover reconstruct the input. -/
theorem splitNl_reconstruct (l : List Char) :
    ((splitNl l).dropLast.map (· ++ ['\n'])).flatten ++ (splitNl l).getLastD [] = l := by
  have key : ∀ (t : List (List Char)) (h : List Char),
      ((h :: t).dropLast.map (· ++ ['\n'])).flatten ++ (h :: t).getLastD [] =
        joinNl (h :: t) := by
    intro t
    induction t with
    | nil => intro h; simp [joinNl, List.getLastD_cons]
    | cons z zs ih =>
      intro h
      rw [List.dropLast_cons₂, List.getLastD_cons]
      simp only [List.map_cons, List.flatten_cons, joinNl]
      have := ih z
      rw [List.getLastD_cons] at this ⊢
      cases zs with
      | nil => simp [joinNl, List.getLastD_nil]
      | cons w ws => simp only [joinNl] at this ⊢; rw [List.append_assoc, this]; simp
  have : splitNl l = (splitNlF l).1 :: (splitNlF l).2 := rfl
  rw [this, key, ← this, joinNl_splitNl]

/-! ## String-prefix lemmas -/

theorem startsWithStr_exists : ∀ {p s : List Char},
    startsWithStr p s = true → ∃ r, s = p ++ r := by
  intro p
  induction p with
  | nil => intro s _; exact ⟨s, rfl⟩
  | cons a ps ih =>
    intro s h
    cases s with
    | nil => simp [startsWithStr] at h
    | cons c cs =>
      simp only [startsWithStr, Bool.and_eq_true, beq_iff_eq] at h
      obtain ⟨r, hr⟩ := ih h.2
      exact ⟨r, by rw [h.1, hr]; rfl⟩

theorem startsWithStr_append (p r : List Char) :
    startsWithStr p (p ++ r) = true := by
  induction p with
  | nil => rfl
  | cons a ps ih => simp [startsWithStr, ih]

/-! ## Position of a complete line inside the accumulated stream -/

theorem joinNl_cons_cons (s z : List Char) (zs : List (List Char)) :
    joinNl (s :: z :: zs) = s ++ '\n' :: joinNl (z :: zs) := rfl

theorem splitNl_pos_aux : ∀ (x : List Char),
    (∀ l, l ∈ (splitNl x).dropLast →
      ∃ A B, x = A ++ l ++ '\n' :: B ∧ (A = [] ∨ A.getLast? = some '\n')) ∧
    (∀ l, l ∈ ((splitNlF x).2).dropLast →
      ∃ A B, x = A ++ l ++ '\n' :: B ∧ A.getLast? = some '\n') := by
  intro x
  induction x with
  | nil =>
    constructor
    · intro l hl; simp [splitNl, splitNlF] at hl
    · intro l hl; simp [splitNlF] at hl
  | cons c cs ih =>
    obtain ⟨ih1, ih2⟩ := ih
    by_cases h : c = '\n'
    · subst h
      have hF : splitNlF ('\n' :: cs) = ([], (splitNlF cs).1 :: (splitNlF cs).2) := by
        simp [splitNlF]
      have part2 : ∀ l, l ∈ ((splitNlF ('\n' :: cs)).2).dropLast →
          ∃ A B, '\n' :: cs = A ++ l ++ '\n' :: B ∧ A.getLast? = some '\n' := by
        intro l hl
        rw [hF] at hl
        have : l ∈ (splitNl cs).dropLast := hl
        obtain ⟨A', B', hx, hA⟩ := ih1 l this
        refine ⟨'\n' :: A', B', by rw [hx]; rfl, ?_⟩
        rcases hA with hA | hA
        · subst hA; rfl
        · cases A' with
          | nil => simp at hA
          | cons a as => rw [List.getLast?_cons_cons]; exact hA
      constructor
      · intro l hl
        have hsp : splitNl ('\n' :: cs) = [] :: splitNl cs := by
          simp [splitNl, hF]
        rw [hsp] at hl
        have hnn : splitNl cs = (splitNlF cs).1 :: (splitNlF cs).2 := rfl
        rw [hnn, List.dropLast_cons₂] at hl
        rcases List.mem_cons.1 hl with h1 | h1
        · exact ⟨[], cs, by rw [h1]; rfl, Or.inl rfl⟩
        · obtain ⟨A, B, hx, hA⟩ := part2 l (by rw [hF]; exact h1)
          exact ⟨A, B, hx, Or.inr hA⟩
      · exact part2
    · have hF : splitNlF (c :: cs) = (c :: (splitNlF cs).1, (splitNlF cs).2) := by
        simp [splitNlF, h]
      have part2 : ∀ l, l ∈ ((splitNlF (c :: cs)).2).dropLast →
          ∃ A B, c :: cs = A ++ l ++ '\n' :: B ∧ A.getLast? = some '\n' := by
        intro l hl
        rw [hF] at hl
        obtain ⟨A', B', hx, hA⟩ := ih2 l hl
        have hne : A' ≠ [] := by
          intro he; rw [he] at hA; simp at hA
        refine ⟨c :: A', B', by rw [hx]; rfl, ?_⟩
        cases A' with
        | nil => exact absurd rfl hne
        | cons a as => rw [List.getLast?_cons_cons]; exact hA
      constructor
      · intro l hl
        have hsp : splitNl (c :: cs) = (c :: (splitNlF cs).1) :: (splitNlF cs).2 := by
          simp [splitNl, hF]
        rw [hsp] at hl
        cases h2 : (splitNlF cs).2 with
        | nil => rw [h2] at hl; simp at hl
        | cons z zs =>
          rw [h2, List.dropLast_cons₂] at hl
          rcases List.mem_cons.1 hl with h1 | h1
          · have hcs : cs = (splitNlF cs).1 ++ '\n' :: joinNl (z :: zs) := by
              have hj := joinNl_splitNl cs
              have : splitNl cs = (splitNlF cs).1 :: z :: zs := by
                simp [splitNl, h2]
              rw [this, joinNl_cons_cons] at hj
              exact hj.symm
            refine ⟨[], joinNl (z :: zs), ?_, Or.inl rfl⟩
            rw [h1]
            simp only [List.nil_append, List.cons_append]
            exact congrArg (List.cons c) hcs
          · obtain ⟨A, B, hx, hA⟩ := part2 l (by rw [hF, h2]; exact h1)
            exact ⟨A, B, hx, Or.inr hA⟩
      · exact part2

/-- A member of the complete lines of `splitNl x` occurs in `x` as a
full `'\n'`-terminated line starting at the beginning of `x` or right
after a newline. -/
theorem mem_dropLast_splitNl_pos (x l : List Char)
    (h : l ∈ (splitNl x).dropLast) :
    ∃ A B, x = A ++ l ++ '\n' :: B ∧ (A = [] ∨ A.getLast? = some '\n') :=
  (splitNl_pos_aux x).1 l h

/-! ## Inversion of the line dispatch -/

theorem stepLine_inv (fl : Bool) (c : Nat) (l : List Char) :
    (stepLine fl c l = .terminate → startsWithStr dataTagL l = true) ∧
    (∀ es c', stepLine fl c l = .events es c' →
      (es = [] ∧ c' = c) ∨
      (∃ s, es = [.dataText s] ∧ c' = c ∧ startsWithStr dataTagL l = true) ∨
      (es = [.tagged l] ∧ c' = c) ∨
      (∃ p, es = [.step c p] ∧ c' = c + 1)) := by
  constructor
  · intro ht
    unfold stepLine at ht
    split at ht
    · next h1 => exact h1
    · next h1 =>
      exfalso
      split at ht
      · cases ht
      · split at ht
        · split at ht <;> cases ht
        · cases ht
  · intro es c' h
    simp only [stepLine] at h
    split at h
    · next h1 =>
      split at h
      · cases h
      · split at h
        · split at h
          · cases h
            exact Or.inr (Or.inl ⟨_, rfl, rfl, h1⟩)
          · cases h
            exact Or.inl ⟨rfl, rfl⟩
        · cases h
          exact Or.inl ⟨rfl, rfl⟩
    · split at h
      · cases h
        exact Or.inr (Or.inr (Or.inl ⟨rfl, rfl⟩))
      · split at h
        · split at h
          · cases h
            exact Or.inr (Or.inr (Or.inr ⟨_, rfl, rfl⟩))
          · cases h
            exact Or.inl ⟨rfl, rfl⟩
        · cases h
          exact Or.inl ⟨rfl, rfl⟩

/-! ## Loop invariants of the generate-stream normalizer -/

theorem runLines_spec (fl : Bool) : ∀ (ls : List (List Char)) (st : GenSt),
    (runLines fl st ls).1.buffer = st.buffer ∧
    (runLines fl st ls).1.streamContent = st.streamContent ∧
    (∃ es, (runLines fl st ls).1.out = st.out ++ es ∧
      (∀ s, OutEvt.dataText s ∈ es → ∃ l, l ∈ ls ∧ startsWithStr dataTagL l = true) ∧
      (∀ t, OutEvt.fallbackText t ∉ es)) ∧
    (st.out.filterMap stepIdx = List.range st.counter →
      (runLines fl st ls).1.out.filterMap stepIdx =
        List.range (runLines fl st ls).1.counter) ∧
    ((runLines fl st ls).2 = true →
      ∃ l, l ∈ ls ∧ startsWithStr dataTagL l = true) := by
  intro ls
  induction ls with
  | nil =>
    intro st
    refine ⟨rfl, rfl, ⟨[], by simp [runLines], by simp, by simp⟩, fun h => h,
      fun h => by simp [runLines] at h⟩
  | cons l ls ih =>
    intro st
    cases hs : stepLine fl st.counter l with
    | terminate =>
      have hr : runLines fl st (l :: ls) = (st, true) := by
        simp [runLines, hs]
      rw [hr]
      refine ⟨rfl, rfl, ⟨[], by simp, by simp, by simp⟩, fun h => h, fun _ => ?_⟩
      exact ⟨l, List.mem_cons_self l ls, (stepLine_inv fl st.counter l).1 hs⟩
    | events es0 c' =>
      have hr : runLines fl st (l :: ls) =
          runLines fl { st with counter := c', out := st.out ++ es0 } ls := by
        simp [runLines, hs]
      rw [hr]
      obtain ⟨ihb, ihs, ⟨es2, ihout, ihdata, ihfb⟩, ihcnt, ihterm⟩ :=
        ih { st with counter := c', out := st.out ++ es0 }
      have hshape := (stepLine_inv fl st.counter l).2 es0 c' hs
      refine ⟨ihb, ihs, ⟨es0 ++ es2, ?_, ?_, ?_⟩, ?_, ?_⟩
      · rw [ihout]; simp
      · intro s hmem
        rcases List.mem_append.1 hmem with hm | hm
        · rcases hshape with ⟨he, _⟩ | ⟨s', he, _, hd⟩ | ⟨he, _⟩ | ⟨p, he, _⟩
          · rw [he] at hm; simp at hm
          · rw [he] at hm
            simp only [List.mem_singleton] at hm
            exact ⟨l, List.mem_cons_self l ls, by cases hm; exact hd⟩
          · rw [he] at hm; simp at hm
          · rw [he] at hm; simp at hm
        · obtain ⟨l', hl', hd'⟩ := ihdata s hm
          exact ⟨l', List.mem_cons_of_mem _ hl', hd'⟩
      · intro t hmem
        rcases List.mem_append.1 hmem with hm | hm
        · rcases hshape with ⟨he, _⟩ | ⟨s', he, _, _⟩ | ⟨he, _⟩ | ⟨p, he, _⟩ <;>
            rw [he] at hm <;> simp at hm
        · exact ihfb t hm
      · intro hcnt
        apply ihcnt
        show (st.out ++ es0).filterMap stepIdx = List.range c'
        rw [List.filterMap_append, hcnt]
        rcases hshape with ⟨he, hc⟩ | ⟨s', he, hc, _⟩ | ⟨he, hc⟩ | ⟨p, he, hc⟩ <;>
          subst he <;> subst hc <;> simp [stepIdx, List.range_succ]
      · intro hterm
        obtain ⟨l', hl', hd'⟩ := ihterm hterm
        exact ⟨l', List.mem_cons_of_mem _ hl', hd'⟩

theorem processChunk_spec (fl : Bool) (st : GenSt) (chunk : List Char)
    (hbuf : st.buffer = (splitNl st.streamContent).getLastD []) :
    (processChunk fl st chunk).1.streamContent = st.streamContent ++ chunk ∧
    (processChunk fl st chunk).1.buffer =
      (splitNl ((processChunk fl st chunk).1.streamContent)).getLastD [] ∧
    (∃ es, (processChunk fl st chunk).1.out = st.out ++ es ∧
      (∀ s, OutEvt.dataText s ∈ es →
        DataLineAt ((processChunk fl st chunk).1.streamContent)) ∧
      (∀ t, OutEvt.fallbackText t ∉ es)) ∧
    (st.out.filterMap stepIdx = List.range st.counter →
      (processChunk fl st chunk).1.out.filterMap stepIdx =
        List.range (processChunk fl st chunk).1.counter) ∧
    ((processChunk fl st chunk).2 = true →
      DataLineAt ((processChunk fl st chunk).1.streamContent)) := by
  unfold processChunk
  obtain ⟨hb, hsc, ⟨es, hout, hdata, hfb⟩, hcnt, hterm⟩ :=
    runLines_spec fl (splitNl (st.buffer ++ chunk)).dropLast
      { buffer := (splitNl (st.buffer ++ chunk)).getLastD [],
        streamContent := st.streamContent ++ chunk,
        counter := st.counter, out := st.out }
  have hline : ∀ l, l ∈ (splitNl (st.buffer ++ chunk)).dropLast →
      startsWithStr dataTagL l = true →
      DataLineAt (st.streamContent ++ chunk) := by
    intro l hl hd
    have hmem : l ∈ (splitNl (st.streamContent ++ chunk)).dropLast := by
      rw [splitNl_accum st.streamContent chunk, ← hbuf]
      rcases hT : splitNl (st.buffer ++ chunk) with _ | ⟨y, ys⟩
      · exact absurd hT (splitNl_ne_nil _)
      · rw [List.dropLast_append_cons]
        rw [hT] at hl
        exact List.mem_append_right _ hl
    obtain ⟨A, B, hx, hA⟩ := mem_dropLast_splitNl_pos _ l hmem
    exact ⟨A, l, B, hx, hd, hA⟩
  refine ⟨by rw [hsc], ?_, ⟨es, by rw [hout], ?_, hfb⟩, ?_, ?_⟩
  · rw [hb, hsc]
    show (splitNl (st.buffer ++ chunk)).getLastD [] =
      (splitNl (st.streamContent ++ chunk)).getLastD []
    rw [splitNl_accum st.streamContent chunk, ← hbuf]
    rcases hT : splitNl (st.buffer ++ chunk) with _ | ⟨y, ys⟩
    · exact absurd hT (splitNl_ne_nil _)
    · rw [getLastD_append_cons]
  · intro s hmem
    obtain ⟨l, hl, hd⟩ := hdata s hmem
    rw [hsc]
    exact hline l hl hd
  · intro h
    exact hcnt h
  · intro h
    obtain ⟨l, hl, hd⟩ := hterm h
    rw [hsc]
    exact hline l hl hd

/-- Persistence of the line-position fact under stream growth. -/
theorem dataLineAt_append (sc more : List Char) (h : DataLineAt sc) :
    DataLineAt (sc ++ more) := by
  obtain ⟨A, l, B, hx, hd, hA⟩ := h
  refine ⟨A, l, B ++ more, ?_, hd, hA⟩
  rw [hx]
  simp

/-- Master lemma: the read loop always ends in `finalizeGen b st'` for a
reachable state `st'` satisfying the loop invariants; `b = true` (the
terminator path) implies the accumulated stream contains a complete
`data: ` line. -/
theorem runGo_spec (fl : Bool) : ∀ (evts : List ReadEvt) (st : GenSt),
    st.buffer = (splitNl st.streamContent).getLastD [] →
    ∃ b st', runGenGo fl st evts = finalizeGen b st' ∧
      (∃ es, st'.out = st.out ++ es ∧
        (∀ s, OutEvt.dataText s ∈ es → DataLineAt st'.streamContent) ∧
        (∀ t, OutEvt.fallbackText t ∉ es)) ∧
      (st.out.filterMap stepIdx = List.range st.counter →
        st'.out.filterMap stepIdx = List.range st'.counter) ∧
      (∃ more, st'.streamContent = st.streamContent ++ more) ∧
      (b = true → DataLineAt st'.streamContent) := by
  intro evts
  induction evts with
  | nil =>
    intro st _
    exact ⟨false, st, rfl, ⟨[], by simp, by simp, by simp⟩, fun h => h,
      ⟨[], by simp⟩, fun h => by cases h⟩
  | cons e evts ih =>
    intro st hbuf
    cases e with
    | readError =>
      exact ⟨false, st, rfl, ⟨[], by simp, by simp, by simp⟩, fun h => h,
        ⟨[], by simp⟩, fun h => by cases h⟩
    | chunk s =>
      obtain ⟨hsc, hbuf', ⟨es1, hout1, hdata1, hfb1⟩, hcnt1, hterm1⟩ :=
        processChunk_spec fl st s hbuf
      cases hpc : (processChunk fl st s).2 with
      | true =>
        refine ⟨true, (processChunk fl st s).1, ?_, ⟨es1, hout1, hdata1, hfb1⟩,
          hcnt1, ⟨s, hsc⟩, fun _ => hterm1 hpc⟩
        show runGenGo fl st (.chunk s :: evts) = _
        simp only [runGenGo]
        rcases hx : processChunk fl st s with ⟨st1, b1⟩
        rw [hx] at hpc
        cases hpc
        rfl
      | false =>
        obtain ⟨b, st', hrun, ⟨es2, hout2, hdata2, hfb2⟩, hcnt2, ⟨more2, hsc2⟩, hterm2⟩ :=
          ih (processChunk fl st s).1 hbuf'
        refine ⟨b, st', ?_, ⟨es1 ++ es2, ?_, ?_, ?_⟩, ?_, ?_, hterm2⟩
        · show runGenGo fl st (.chunk s :: evts) = _
          simp only [runGenGo]
          rcases hx : processChunk fl st s with ⟨st1, b1⟩
          rw [hx] at hpc
          cases hpc
          rw [hx] at hrun
          exact hrun
        · rw [hout2, hout1]; simp
        · intro t hmem
          rcases List.mem_append.1 hmem with hm | hm
          · rw [hsc2]
            exact dataLineAt_append _ _ (hdata1 t hm)
          · exact hdata2 t hm
        · intro t hmem
          rcases List.mem_append.1 hmem with hm | hm
          · exact hfb1 t hm
          · exact hfb2 t hm
        · intro h
          exact hcnt2 (hcnt1 h)
        · exact ⟨s ++ more2, by rw [hsc2, hsc]; simp⟩

/-! ## Parser soundness: consumed input is a `Piece` -/

theorem piece_append {a b : List Char} (ha : Piece a) (hb : Piece b) :
    Piece (a ++ b) := by
  obtain ⟨hca, hha⟩ := ha
  obtain ⟨hcb, hhb⟩ := hb
  constructor
  · rw [List.chain'_append]
    refine ⟨hca, hcb, ?_⟩
    intro x _ y hy hnl
    exact hhb y hy
  · intro h hh
    cases a with
    | nil => exact hhb h hh
    | cons c cs => exact hha h (by simpa using hh)

theorem chain_of_no_nl : ∀ {c : List Char}, (∀ x ∈ c, x ≠ '\n') →
    c.Chain' okPair := by
  intro c
  induction c with
  | nil => intro _; exact List.chain'_nil
  | cons a l ih =>
    intro hn
    rw [List.chain'_cons']
    refine ⟨?_, ih (fun x hx => hn x (List.mem_cons_of_mem _ hx))⟩
    intro y _ hnl
    exact absurd hnl (hn a (List.mem_cons_self _ _))

theorem piece_of_no_nl {c : List Char} (hn : ∀ x ∈ c, x ≠ '\n')
    (hh : ∀ h ∈ c.head?, h ≠ 'd') : Piece c :=
  ⟨chain_of_no_nl hn, hh⟩

theorem ws_ne_d {c : Char} (h : isJsonWs c = true) : c ≠ 'd' := by
  intro he
  subst he
  exact absurd h (by decide)

theorem piece_of_all_ws {c : List Char} (hw : ∀ x ∈ c, isJsonWs x = true) :
    Piece c := by
  constructor
  · induction c with
    | nil => exact List.chain'_nil
    | cons a l ih =>
      rw [List.chain'_cons']
      refine ⟨?_, ih (fun x hx => hw x (List.mem_cons_of_mem _ hx))⟩
      intro y hy _
      cases l with
      | nil => simp at hy
      | cons b bs =>
        simp only [List.head?_cons, Option.mem_def, Option.some.injEq] at hy
        subst hy
        exact ws_ne_d (hw b (List.mem_cons_of_mem _ (List.mem_cons_self _ _)))
  · intro h hh
    cases c with
    | nil => simp at hh
    | cons a l =>
      simp only [List.head?_cons, Option.mem_def, Option.some.injEq] at hh
      subst hh
      exact ws_ne_d (hw a (List.mem_cons_self _ _))

theorem skipWs_decomp (s : List Char) :
    s = s.takeWhile isJsonWs ++ skipWs s :=
  (List.takeWhile_append_dropWhile isJsonWs s).symm

theorem piece_ws_chunk (s : List Char) : Piece (s.takeWhile isJsonWs) :=
  piece_of_all_ws (fun _ hx => List.mem_takeWhile_imp hx)

theorem skipWs_nil_all_ws {s : List Char} (h : (skipWs s).isEmpty = true) :
    ∀ x ∈ s, isJsonWs x = true := by
  have h' : skipWs s = [] := by simpa using h
  exact List.dropWhile_eq_nil_iff.1 h'

theorem digit_ne_d {c : Char} (h : isDigitCh c = true) : c ≠ 'd' := by
  intro he; subst he; exact absurd h (by decide)

theorem digit_ne_nl {c : Char} (h : isDigitCh c = true) : c ≠ '\n' := by
  intro he; subst he; exact absurd h (by decide)

theorem mapCons_inv {ch : Char} {o : Option (List Char × List Char)}
    {out rest : List Char} (h : mapCons ch o = some (out, rest)) :
    ∃ out', o = some (out', rest) ∧ out = ch :: out' := by
  cases o with
  | none => cases h
  | some pr =>
    obtain ⟨a, b⟩ := pr
    simp only [mapCons, Option.some.injEq, Prod.mk.injEq] at h
    exact ⟨a, by rw [h.2], h.1.symm⟩

theorem hex_ne_nl {c : Char} {n : Nat} (h : hexVal c = some n) : c ≠ '\n' := by
  intro he
  subst he
  rw [(by decide : hexVal '\n' = none)] at h
  cases h

theorem esc_ne_nl {e ch : Char} (h : escDecode e = some ch) : e ≠ '\n' := by
  intro he
  subst he
  rw [(by decide : escDecode '\n' = none)] at h
  cases h

theorem pStr_sound : ∀ (f : Nat) (s out rest : List Char),
    pStr f s = some (out, rest) → ∃ c, s = c ++ rest ∧ ∀ x ∈ c, x ≠ '\n' := by
  intro f
  induction f with
  | zero => intro s out rest h; exact Option.noConfusion h
  | succ f ih =>
    intro s out rest h
    cases s with
    | nil => exact Option.noConfusion h
    | cons c r =>
      rw [pStr.eq_def] at h
      dsimp only at h
      split at h
      · next hc =>
        cases h
        refine ⟨[c], rfl, ?_⟩
        intro x hx
        simp at hx
        subst hx
        rw [hc]
        decide
      · next hc =>
        split at h
        · next hbs =>
          split at h
          · next a b c2 d r3 =>
            split at h
            · next ha hb2 hc2 hd =>
              obtain ⟨out', hps, hout⟩ := mapCons_inv h
              obtain ⟨c', hc', hn'⟩ := ih r3 out' rest hps
              refine ⟨c :: 'u' :: a :: b :: c2 :: d :: c', by simp [hc'], ?_⟩
              intro x hx
              rcases hx with _ | ⟨_, hx⟩
              · rw [hbs]; decide
              · rcases hx with _ | ⟨_, hx⟩
                · decide
                · rcases hx with _ | ⟨_, hx⟩
                  · exact hex_ne_nl ha
                  · rcases hx with _ | ⟨_, hx⟩
                    · exact hex_ne_nl hb2
                    · rcases hx with _ | ⟨_, hx⟩
                      · exact hex_ne_nl hc2
                      · rcases hx with _ | ⟨_, hx⟩
                        · exact hex_ne_nl hd
                        · exact hn' x hx
            · cases h
          · next e r2 hcon =>
            split at h
            · next ch hesc =>
              obtain ⟨out', hps, hout⟩ := mapCons_inv h
              obtain ⟨c', hc', hn'⟩ := ih r2 out' rest hps
              refine ⟨c :: e :: c', by simp [hc'], ?_⟩
              intro x hx
              rcases hx with _ | ⟨_, hx⟩
              · rw [hbs]; decide
              · rcases hx with _ | ⟨_, hx⟩
                · exact esc_ne_nl hesc
                · exact hn' x hx
            · cases h
          · cases h
        · next hbs =>
          split at h
          · cases h
          · next hlt =>
            obtain ⟨out', hps, hout⟩ := mapCons_inv h
            obtain ⟨c', hc', hn'⟩ := ih r out' rest hps
            refine ⟨c :: c', by simp [hc'], ?_⟩
            intro x hx
            rcases hx with _ | ⟨_, hx⟩
            · intro hne
              subst hne
              exact hlt (by decide)
            · exact hn' x hx

theorem pInt_sound {s ip r : List Char} (h : pInt s = some (ip, r)) :
    s = ip ++ r ∧ (∀ x ∈ ip, isDigitCh x = true) ∧
    ∃ hd t, ip = hd :: t ∧ isDigitCh hd = true := by
  unfold pInt at h
  split at h
  · cases h
    refine ⟨rfl, ?_, '0', [], rfl, by decide⟩
    intro x hx
    simp at hx
    subst hx
    decide
  · rename_i chd ctl hcon
    split at h
    · rename_i hg
      cases h
      have hd : isDigitCh chd = true := by
        simp only [Bool.and_eq_true] at hg
        exact hg.1
      refine ⟨by simp [List.takeWhile_append_dropWhile], ?_, chd, _, rfl, hd⟩
      intro x hx
      rcases hx with _ | ⟨_, hx⟩
      · exact hd
      · exact List.mem_takeWhile_imp hx
    · cases h
  · cases h

theorem pFrac_sound {r fp r2 : List Char} (h : pFrac r = some (fp, r2)) :
    r = fp ++ r2 ∧ ∀ x ∈ fp, x = '.' ∨ isDigitCh x = true := by
  unfold pFrac at h
  split at h
  · rename_i r1
    dsimp only at h
    split at h
    · cases h
    · rename_i hne
      cases h
      refine ⟨by simp [List.takeWhile_append_dropWhile], ?_⟩
      intro x hx
      rcases hx with _ | ⟨_, hx⟩
      · exact Or.inl rfl
      · exact Or.inr (List.mem_takeWhile_imp hx)
  · cases h
    exact ⟨rfl, by simp⟩

theorem pExp_sound {r ep r2 : List Char} (h : pExp r = some (ep, r2)) :
    r = ep ++ r2 ∧
    ∀ x ∈ ep, x = 'e' ∨ x = 'E' ∨ x = '+' ∨ x = '-' ∨ isDigitCh x = true := by
  unfold pExp at h
  split at h
  · rename_i e r1
    split at h
    · rename_i hee
      have he : e = 'e' ∨ e = 'E' := by
        simp only [Bool.or_eq_true, decide_eq_true_eq] at hee
        exact hee
      have hchar : ∀ x : Char, x = 'e' ∨ x = 'E' →
          x = 'e' ∨ x = 'E' ∨ x = '+' ∨ x = '-' ∨ isDigitCh x = true := by
        intro x hx
        rcases hx with hx | hx
        · exact Or.inl hx
        · exact Or.inr (Or.inl hx)
      split at h
      rename_i sg r2a heq
      have hr1 : r1 = sg ++ r2a ∧ (sg = [] ∨ sg = ['+'] ∨ sg = ['-']) := by
        split at heq
        · injection heq with h1 h2
          subst h2
          rw [← h1]
          exact ⟨rfl, Or.inr (Or.inl rfl)⟩
        · injection heq with h1 h2
          subst h2
          rw [← h1]
          exact ⟨rfl, Or.inr (Or.inr rfl)⟩
        · injection heq with h1 h2
          subst h2
          rw [← h1]
          exact ⟨rfl, Or.inl rfl⟩
      dsimp only at h
      split at h
      · cases h
      · rename_i hne
        cases h
        obtain ⟨hra, hsg⟩ := hr1
        constructor
        · rw [hra]
          simp [List.takeWhile_append_dropWhile]
        · intro x hx
          rcases hx with _ | ⟨_, hx⟩
          · exact hchar e he
          · rcases List.mem_append.1 hx with hm | hm
            · rcases hsg with hs | hs | hs <;> subst hs
              · simp at hm
              · simp at hm
                subst hm
                exact Or.inr (Or.inr (Or.inl rfl))
              · simp at hm
                subst hm
                exact Or.inr (Or.inr (Or.inr (Or.inl rfl)))
            · exact Or.inr (Or.inr (Or.inr (Or.inr (List.mem_takeWhile_imp hm))))
    · rename_i hee
      cases h
      exact ⟨rfl, by simp⟩
  · cases h
    exact ⟨rfl, by simp⟩

theorem numCh_ne {x : Char}
    (hx : x = '.' ∨ x = 'e' ∨ x = 'E' ∨ x = '+' ∨ x = '-' ∨ isDigitCh x = true) :
    x ≠ '\n' ∧ x ≠ 'd' := by
  rcases hx with h | h | h | h | h | h
  · subst h; exact ⟨by decide, by decide⟩
  · subst h; exact ⟨by decide, by decide⟩
  · subst h; exact ⟨by decide, by decide⟩
  · subst h; exact ⟨by decide, by decide⟩
  · subst h; exact ⟨by decide, by decide⟩
  · exact ⟨digit_ne_nl h, digit_ne_d h⟩

theorem pNumBody_sound {sg s1 lex rest : List Char}
    (h : pNumBody sg s1 = some (lex, rest)) :
    ∃ body, lex = sg ++ body ∧ s1 = body ++ rest ∧
      (∀ x ∈ body, x ≠ '\n' ∧ x ≠ 'd') ∧
      ∃ hd t, body = hd :: t ∧ isDigitCh hd = true := by
  unfold pNumBody at h
  split at h
  · cases h
  · next ip r1 hip =>
    split at h
    · cases h
    · next fp r2 hfp =>
      split at h
      · cases h
      · next ep r3 hep =>
        cases h
        obtain ⟨hs1, hipd, hd0, t0, hip0, hdig⟩ := pInt_sound hip
        obtain ⟨hr1, hfpd⟩ := pFrac_sound hfp
        obtain ⟨hr2, hepd⟩ := pExp_sound hep
        refine ⟨ip ++ fp ++ ep, by simp, ?_, ?_, hd0, t0 ++ fp ++ ep, by simp [hip0], hdig⟩
        · rw [hs1, hr1, hr2]
          simp
        · intro x hx
          simp only [List.append_assoc, List.mem_append] at hx
          rcases hx with hm | hm | hm
          · exact numCh_ne (Or.inr (Or.inr (Or.inr (Or.inr (Or.inr (hipd x hm))))))
          · rcases hfpd x hm with hm2 | hm2
            · exact numCh_ne (Or.inl hm2)
            · exact numCh_ne (Or.inr (Or.inr (Or.inr (Or.inr (Or.inr hm2)))))
          · rcases hepd x hm with hm2 | hm2 | hm2 | hm2 | hm2 <;>
              [exact numCh_ne (Or.inr (Or.inl hm2));
               exact numCh_ne (Or.inr (Or.inr (Or.inl hm2)));
               exact numCh_ne (Or.inr (Or.inr (Or.inr (Or.inl hm2))));
               exact numCh_ne (Or.inr (Or.inr (Or.inr (Or.inr (Or.inl hm2)))));
               exact numCh_ne (Or.inr (Or.inr (Or.inr (Or.inr (Or.inr hm2)))))]

theorem pNum_sound {s lex rest : List Char} (h : pNum s = some (lex, rest)) :
    s = lex ++ rest ∧ (∀ x ∈ lex, x ≠ '\n') ∧ ∀ hh ∈ lex.head?, hh ≠ 'd' := by
  unfold pNum at h
  split at h
  · next r =>
    obtain ⟨body, hlex, hr, hch, hd0, t0, hb0, hdig⟩ := pNumBody_sound h
    subst hlex
    refine ⟨by rw [hr]; rfl, ?_, ?_⟩
    · intro x hx
      rcases hx with _ | ⟨_, hx⟩
      · decide
      · exact (hch x hx).1
    · intro hh hhh
      simp at hhh
      subst hhh
      decide
  · obtain ⟨body, hlex, hr, hch, hd0, t0, hb0, hdig⟩ := pNumBody_sound h
    subst hlex
    refine ⟨by simpa using hr, ?_, ?_⟩
    · intro x hx
      exact (hch x (by simpa using hx)).1
    · intro hh hhh
      rw [hb0] at hhh
      simp at hhh
      subst hhh
      exact digit_ne_d hdig

theorem piece_singleton {c : Char} (h : c ≠ 'd') : Piece [c] := by
  constructor
  · simp
  · intro h' hh
    simp at hh
    subst hh
    exact h

theorem skipWs_piece_decomp (r : List Char) :
    ∃ w, r = w ++ skipWs r ∧ Piece w :=
  ⟨r.takeWhile isJsonWs, skipWs_decomp r, piece_ws_chunk r⟩

theorem pStr_piece {f : Nat} {r out rest : List Char}
    (h : pStr f r = some (out, rest)) :
    ∃ c, '"' :: r = c ++ rest ∧ Piece c := by
  obtain ⟨c', hc', hn'⟩ := pStr_sound f r out rest h
  refine ⟨'"' :: c', by rw [hc']; rfl, piece_of_no_nl ?_ ?_⟩
  · intro x hx
    rcases hx with _ | ⟨_, hx⟩
    · decide
    · exact hn' x hx
  · intro hh hhh
    simp at hhh
    subst hhh
    decide

theorem pVal_cons (f : Nat) (c : Char) (r : List Char) :
    pVal (f + 1) (c :: r) =
      (if c = '{' then
        match skipWs r with
        | '}' :: r2 => some (.obj [], r2)
        | r1 =>
          match pMembers f r1 with
          | some (fs, rest) => some (.obj fs, rest)
          | none => none
      else if c = '[' then
        match skipWs r with
        | ']' :: r2 => some (.arr [], r2)
        | r1 =>
          match pElems f r1 with
          | some (es, rest) => some (.arr es, rest)
          | none => none
      else if c = '"' then
        match pStr (r.length + 1) r with
        | some (cs, rest) => some (.str cs, rest)
        | none => none
      else if c = 't' then
        match r with
        | 'r' :: 'u' :: 'e' :: rest => some (.boolean true, rest)
        | _ => none
      else if c = 'f' then
        match r with
        | 'a' :: 'l' :: 's' :: 'e' :: rest => some (.boolean false, rest)
        | _ => none
      else if c = 'n' then
        match r with
        | 'u' :: 'l' :: 'l' :: rest => some (.null, rest)
        | _ => none
      else
        match pNum (c :: r) with
        | some (lex, rest) => some (.num lex, rest)
        | none => none) := rfl

theorem parser_sound : ∀ f : Nat,
    (∀ s v rest, pVal f s = some (v, rest) → ∃ c, s = c ++ rest ∧ Piece c) ∧
    (∀ s fs rest, pMembers f s = some (fs, rest) → ∃ c, s = c ++ rest ∧ Piece c) ∧
    (∀ s es rest, pElems f s = some (es, rest) → ∃ c, s = c ++ rest ∧ Piece c) := by
  intro f
  induction f with
  | zero =>
    refine ⟨?_, ?_, ?_⟩ <;> intro s a rest h <;> exact Option.noConfusion h
  | succ f ih =>
    obtain ⟨ihv, ihm, ihe⟩ := ih
    refine ⟨?_, ?_, ?_⟩
    · -- pVal
      intro s v rest h
      cases s with
      | nil => exact Option.noConfusion h
      | cons c r =>
        rw [pVal_cons] at h
        by_cases h1 : c = '{'
        · rw [if_pos h1] at h
          subst h1
          obtain ⟨w, hw, hwp⟩ := skipWs_piece_decomp r
          split at h
          · rename_i r2 heq
            cases h
            refine ⟨'{' :: (w ++ ['}']), ?_, ?_⟩
            · have hr : r = w ++ '}' :: rest := by rw [hw, heq]
              rw [hr]
              simp
            · exact piece_append (piece_singleton (by decide))
                (piece_append hwp (piece_singleton (by decide)))
          · split at h
            · rename_i fs rest' hm
              cases h
              obtain ⟨cm, hcm, hcmp⟩ := ihm (skipWs r) fs rest hm
              refine ⟨'{' :: (w ++ cm), ?_, ?_⟩
              · have hr : r = w ++ (cm ++ rest) := by rw [hw, hcm]
                rw [hr]
                simp
              · exact piece_append (piece_singleton (by decide))
                  (piece_append hwp hcmp)
            · exact Option.noConfusion h
        · rw [if_neg h1] at h
          by_cases h2 : c = '['
          · rw [if_pos h2] at h
            subst h2
            obtain ⟨w, hw, hwp⟩ := skipWs_piece_decomp r
            split at h
            · rename_i r2 heq
              cases h
              refine ⟨'[' :: (w ++ [']']), ?_, ?_⟩
              · have hr : r = w ++ ']' :: rest := by rw [hw, heq]
                rw [hr]
                simp
              · exact piece_append (piece_singleton (by decide))
                  (piece_append hwp (piece_singleton (by decide)))
            · split at h
              · rename_i es rest' he
                cases h
                obtain ⟨ce, hce, hcep⟩ := ihe (skipWs r) es rest he
                refine ⟨'[' :: (w ++ ce), ?_, ?_⟩
                · have hr : r = w ++ (ce ++ rest) := by rw [hw, hce]
                  rw [hr]
                  simp
                · exact piece_append (piece_singleton (by decide))
                    (piece_append hwp hcep)
              · exact Option.noConfusion h
          · rw [if_neg h2] at h
            by_cases h3 : c = '"'
            · rw [if_pos h3] at h
              subst h3
              split at h
              · rename_i cs rest' hps
                cases h
                exact pStr_piece hps
              · exact Option.noConfusion h
            · rw [if_neg h3] at h
              by_cases h4 : c = 't'
              · rw [if_pos h4] at h
                subst h4
                split at h
                · rename_i rest2
                  cases h
                  refine ⟨['t', 'r', 'u', 'e'], rfl, piece_of_no_nl ?_ ?_⟩
                  · intro x hx
                    fin_cases hx <;> decide
                  · intro hh hhh
                    simp at hhh
                    subst hhh
                    decide
                · exact Option.noConfusion h
              · rw [if_neg h4] at h
                by_cases h5 : c = 'f'
                · rw [if_pos h5] at h
                  subst h5
                  split at h
                  · rename_i rest2
                    cases h
                    refine ⟨['f', 'a', 'l', 's', 'e'], rfl, piece_of_no_nl ?_ ?_⟩
                    · intro x hx
                      fin_cases hx <;> decide
                    · intro hh hhh
                      simp at hhh
                      subst hhh
                      decide
                  · exact Option.noConfusion h
                · rw [if_neg h5] at h
                  by_cases h6 : c = 'n'
                  · rw [if_pos h6] at h
                    subst h6
                    split at h
                    · rename_i rest2
                      cases h
                      refine ⟨['n', 'u', 'l', 'l'], rfl, piece_of_no_nl ?_ ?_⟩
                      · intro x hx
                        fin_cases hx <;> decide
                      · intro hh hhh
                        simp at hhh
                        subst hhh
                        decide
                    · exact Option.noConfusion h
                  · rw [if_neg h6] at h
                    split at h
                    · rename_i lex rest' hnum
                      cases h
                      obtain ⟨hdec, hnl, hhd⟩ := pNum_sound hnum
                      exact ⟨lex, hdec, piece_of_no_nl hnl hhd⟩
                    · exact Option.noConfusion h
    · -- pMembers
      intro s fs rest h
      cases s with
      | nil => exact Option.noConfusion h
      | cons c r =>
        by_cases hq : c = '"'
        · subst hq
          unfold pMembers at h
          split at h
          · split at h
            · rename_i key r2 hps
              obtain ⟨cq, hcq, hcqp⟩ := pStr_piece hps
              obtain ⟨w2, hw2, hw2p⟩ := skipWs_piece_decomp r2
              split at h
              · rename_i r3 heq2
                split at h
                · rename_i v0 r4 hv
                  obtain ⟨w3, hw3, hw3p⟩ := skipWs_piece_decomp r3
                  obtain ⟨cv, hcv, hcvp⟩ := ihv (skipWs r3) v0 r4 hv
                  obtain ⟨w4, hw4, hw4p⟩ := skipWs_piece_decomp r4
                  split at h
                  · rename_i r5 heq4
                    split at h
                    · rename_i fs2 r6 hm2
                      cases h
                      obtain ⟨w5, hw5, hw5p⟩ := skipWs_piece_decomp r5
                      obtain ⟨cm, hcm, hcmp⟩ := ihm (skipWs r5) fs2 rest hm2
                      refine ⟨cq ++ (w2 ++ (':' :: (w3 ++ (cv ++ (w4 ++ (',' :: (w5 ++ cm))))))), ?_, ?_⟩
                      · have : ('"' :: r : List Char) = cq ++ r2 := hcq
                        rw [this, hw2, heq2, hw3, hcv, hw4, heq4, hw5, hcm]
                        simp
                      · refine piece_append hcqp (piece_append hw2p ?_)
                        refine piece_append (piece_singleton (by decide)) ?_
                        refine piece_append hw3p (piece_append hcvp ?_)
                        refine piece_append hw4p ?_
                        refine piece_append (piece_singleton (by decide)) ?_
                        exact piece_append hw5p hcmp
                    · exact Option.noConfusion h
                  · rename_i r5 heq4
                    cases h
                    refine ⟨cq ++ (w2 ++ (':' :: (w3 ++ (cv ++ (w4 ++ ['}']))))), ?_, ?_⟩
                    · have : ('"' :: r : List Char) = cq ++ r2 := hcq
                      rw [this, hw2, heq2, hw3, hcv, hw4, heq4]
                      simp
                    · refine piece_append hcqp (piece_append hw2p ?_)
                      refine piece_append (piece_singleton (by decide)) ?_
                      refine piece_append hw3p (piece_append hcvp ?_)
                      exact piece_append hw4p (piece_singleton (by decide))
                  · exact Option.noConfusion h
                · exact Option.noConfusion h
              · exact Option.noConfusion h
            · exact Option.noConfusion h
          · rename_i heq
            exact absurd rfl heq
        · unfold pMembers at h
          split at h
          · rename_i heq
            exact absurd heq hq
          · exact Option.noConfusion h
    · -- pElems
      intro s es rest h
      unfold pElems at h
      split at h
      · rename_i v0 r hv
        obtain ⟨cv, hcv, hcvp⟩ := ihv s v0 r hv
        obtain ⟨w, hw, hwp⟩ := skipWs_piece_decomp r
        split at h
        · rename_i r2 heq
          split at h
          · rename_i es2 r3 he2
            cases h
            obtain ⟨w2, hw2, hw2p⟩ := skipWs_piece_decomp r2
            obtain ⟨ce, hce, hcep⟩ := ihe (skipWs r2) es2 rest he2
            refine ⟨cv ++ (w ++ (',' :: (w2 ++ ce))), ?_, ?_⟩
            · rw [hcv, hw, heq, hw2, hce]
              simp
            · refine piece_append hcvp (piece_append hwp ?_)
              refine piece_append (piece_singleton (by decide)) ?_
              exact piece_append hw2p hcep
          · exact Option.noConfusion h
        · rename_i r2 heq
          cases h
          refine ⟨cv ++ (w ++ [']']), ?_, ?_⟩
          · rw [hcv, hw, heq]
            simp
          · exact piece_append hcvp (piece_append hwp (piece_singleton (by decide)))
        · exact Option.noConfusion h
      · exact Option.noConfusion h

theorem parseJson_piece {s : List Char} {v : Json} (h : parseJson s = some v) :
    Piece s := by
  unfold parseJson at h
  dsimp only at h
  split at h
  · rename_i v0 rest hv
    split at h
    · rename_i hws
      cases h
      obtain ⟨cv, hcv, hcvp⟩ := (parser_sound (2 * (skipWs s).length + 4)).1 _ _ _ hv
      have hs : s = s.takeWhile isJsonWs ++ (cv ++ rest) := by
        rw [← hcv]
        exact skipWs_decomp s
      rw [hs]
      exact piece_append (piece_ws_chunk s)
        (piece_append hcvp (piece_of_all_ws (skipWs_nil_all_ws hws)))
    · exact Option.noConfusion h
  · exact Option.noConfusion h

theorem dataLine_not_json {sc : List Char} (h : DataLineAt sc) :
    parseJson sc = none := by
  rcases hp : parseJson sc with _ | v
  · rfl
  · exfalso
    have hpc := parseJson_piece hp
    obtain ⟨A, l, B, hsc, hd, hA⟩ := h
    obtain ⟨r0, hl⟩ := startsWithStr_exists hd
    have hl' : l = 'd' :: ("ata: ".toList ++ r0) := by
      rw [hl]
      rfl
    have hsc' : sc = A ++ 'd' :: ("ata: ".toList ++ r0 ++ '\n' :: B) := by
      rw [hsc, hl']
      simp
    rcases hA with hA | hA
    · subst hA
      obtain ⟨_, hhd⟩ := hpc
      rw [hsc'] at hhd
      exact hhd 'd' (by simp) rfl
    · obtain ⟨hchain, _⟩ := hpc
      rw [hsc'] at hchain
      rw [List.chain'_append] at hchain
      obtain ⟨_, _, hbound⟩ := hchain
      exact hbound '\n' hA 'd' (by simp) rfl rfl

/-! ## Finalization and extraction helper lemmas -/

theorem finalizeGen_sc (b : Bool) (st : GenSt) :
    (finalizeGen b st).streamContent = st.streamContent := rfl

theorem finalizeGen_closed (b : Bool) (st : GenSt) :
    (finalizeGen b st).closed = true := rfl

theorem finalizeGen_released (b : Bool) (st : GenSt) :
    (finalizeGen b st).released = !b := rfl

theorem finalizeGen_out_cases (b : Bool) (st : GenSt) :
    (finalizeGen b st).output = st.out ∨
    ∃ v, (finalizeGen b st).output = st.out ++ [.fallbackText (trimStr v)] := by
  unfold finalizeGen
  split
  · split
    · split
      · exact Or.inl (by simp)
      · exact Or.inr ⟨_, rfl⟩
    · exact Or.inl (by simp)
  · exact Or.inl (by simp)

theorem finalizeGen_closedAlready (st : GenSt) :
    (finalizeGen true st).output = st.out := by
  unfold finalizeGen
  split
  · split
    · simp
    · simp
  · simp

theorem finalizeGen_no_parse (b : Bool) (st : GenSt)
    (h : parseJson st.streamContent = none) :
    (finalizeGen b st).output = st.out := by
  unfold finalizeGen
  rw [h]
  simp

theorem finalizeGen_emit (st : GenSt) {j : Json} {v : List Char}
    (hp : parseJson st.streamContent = some j)
    (he : fallbackExtract j = some (.str v)) :
    (finalizeGen false st).output = st.out ++ [.fallbackText (trimStr v)] := by
  unfold finalizeGen
  rw [hp]
  dsimp only
  rw [he]
  simp

theorem firstTruthy_truthy : ∀ {l : List (Option Json)} {j : Json},
    firstTruthy l = some j → jTruthy j = true := by
  intro l
  induction l with
  | nil => intro j h; exact Option.noConfusion h
  | cons o os ih =>
    intro j h
    cases o with
    | none =>
      rw [show firstTruthy (none :: os) = firstTruthy os from rfl] at h
      exact ih h
    | some j0 =>
      rw [show firstTruthy (some j0 :: os) =
          (if jTruthy j0 = true then some j0 else firstTruthy os) from rfl] at h
      by_cases ht : jTruthy j0 = true
      · rw [if_pos ht] at h
        cases h
        exact ht
      · rw [if_neg ht] at h
        exact ih h

/-- An `intermediate_data: ` line cannot be a `data: ` line. -/
theorem im_not_data {line : List Char}
    (h : startsWithStr imTagL line = true) :
    startsWithStr dataTagL line = false := by
  obtain ⟨r, hr⟩ := startsWithStr_exists h
  subst hr
  rfl

/-- The initial state of `runGen` satisfies the buffer invariant. -/
theorem init_buf_inv : (⟨[], [], 0, []⟩ : GenSt).buffer =
    (splitNl (⟨[], [], 0, []⟩ : GenSt).streamContent).getLastD [] := rfl

/-- A truthy head wins the `||` chain. -/
theorem firstTruthy_cons_truthy {j : Json} (hj : jTruthy j = true)
    (os : List (Option Json)) : firstTruthy (some j :: os) = some j := by
  unfold firstTruthy
  rw [if_pos hj]

/-- An absent or falsy head is skipped by the `||` chain. -/
theorem firstTruthy_cons_skip (o : Option Json) (os : List (Option Json))
    (h : ∀ j, o = some j → jTruthy j = false) :
    firstTruthy (o :: os) = firstTruthy os := by
  cases o with
  | none => rfl
  | some j =>
    have he : firstTruthy (some j :: os) =
        if jTruthy j then some j else firstTruthy os := rfl
    rw [he, h j rfl]
    simp

/-! # Claim theorems -/

/-- C2: Line-buffer chunk-boundary independence and no loss — for every
multi-line input and every partition of it into chunks, feeding the
chunks through the buffer logic yields the same ordered list of complete
lines regardless of the partition; complete lines never include the
terminator; and the concatenation of all returned lines (with their
terminators) plus the final leftover equals the whole input. -/
theorem c2_line_buffer (input : List Char) (chunks1 chunks2 : List (List Char))
    (h1 : chunks1.flatten = input) (h2 : chunks2.flatten = input) :
    bufferRun chunks1 [] = bufferRun chunks2 [] ∧
    (∀ l ∈ (bufferRun chunks1 []).1, '\n' ∉ l) ∧
    ((bufferRun chunks1 []).1.map (· ++ ['\n'])).flatten ++ (bufferRun chunks1 []).2
      = input := by
  have e1 := bufferRun_eq chunks1 [] (by simp)
  have e2 := bufferRun_eq chunks2 [] (by simp)
  rw [h1] at e1
  rw [h2] at e2
  simp only [List.nil_append] at e1 e2
  refine ⟨e1.trans e2.symm, ?_, ?_⟩
  · rw [e1]
    intro l hl
    exact mem_splitNl_no_nl input l (List.mem_of_mem_dropLast hl)
  · rw [e1]
    exact splitNl_reconstruct input

/-- C3: Fallback recovery triggers only when needed — if a data-event
frame emitted text during the stream, the end-of-stream fallback emits
nothing; if no data-event frame emitted text and the accumulated raw
stream parses as one JSON document whose preference-order extraction
(value, output, answer, choices[0].message.content) is a non-empty
string, the fallback emits that value, trimmed, exactly once before the
output stream closes. -/
theorem c3_fallback_recovery (fl : Bool) (evts : List ReadEvt) :
    ((∃ s, OutEvt.dataText s ∈ (runGen fl evts).output) →
      ∀ t, OutEvt.fallbackText t ∉ (runGen fl evts).output) ∧
    (∀ j v, (∀ s, OutEvt.dataText s ∉ (runGen fl evts).output) →
      parseJson ((runGen fl evts).streamContent) = some j →
      fallbackExtract j = some (.str v) →
      ∃ pre, (runGen fl evts).output = pre ++ [.fallbackText (trimStr v)] ∧
        (runGen fl evts).output.countP isFallbackEvt = 1 ∧
        (runGen fl evts).closed = true) := by
  obtain ⟨b, st', hrun, ⟨es, hout, hdata, hfb⟩, hcnt, ⟨more, hsc⟩, hterm⟩ :=
    runGo_spec fl evts ⟨[], [], 0, []⟩ init_buf_inv
  have hrg : runGen fl evts = finalizeGen b st' := hrun
  have hout' : st'.out = es := by simpa using hout
  constructor
  · rintro ⟨s, hs⟩ t ht
    have hd : OutEvt.dataText s ∈ st'.out := by
      rcases finalizeGen_out_cases b st' with hc | ⟨v, hc⟩
      · rw [hrg, hc] at hs
        exact hs
      · rw [hrg, hc] at hs
        rcases List.mem_append.1 hs with hm | hm
        · exact hm
        · simp at hm
    have hdla : DataLineAt st'.streamContent := by
      rw [hout'] at hd
      exact hdata s hd
    have hnone : parseJson st'.streamContent = none := dataLine_not_json hdla
    have hceq : (runGen fl evts).output = st'.out := by
      rw [hrg]
      exact finalizeGen_no_parse b st' hnone
    rw [hceq, hout'] at ht
    exact hfb t ht
  · intro j v hnod hp he
    have hbf : b = false := by
      cases b with
      | false => rfl
      | true =>
        exfalso
        have hdla := hterm rfl
        have hn := dataLine_not_json hdla
        rw [hrg, finalizeGen_sc] at hp
        rw [hn] at hp
        exact Option.noConfusion hp
    subst hbf
    have hp' : parseJson st'.streamContent = some j := by
      rw [hrg, finalizeGen_sc] at hp
      exact hp
    have hemit := finalizeGen_emit st' hp' he
    refine ⟨st'.out, by rw [hrg]; exact hemit, ?_, by rw [hrg]; exact finalizeGen_closed _ _⟩
    rw [hrg, hemit, List.countP_append]
    have h0 : st'.out.countP isFallbackEvt = 0 := by
      rw [List.countP_eq_zero]
      intro a ha
      cases a with
      | dataText s => simp [isFallbackEvt]
      | tagged l => simp [isFallbackEvt]
      | step i p => simp [isFallbackEvt]
      | fallbackText t =>
        rw [hout'] at ha
        exact absurd ha (hfb t)
    rw [h0]
    simp [isFallbackEvt, List.countP_cons]

/-- Witness for C3 at a concrete backend stream: a single chunk that is
one JSON document with an `answer` field and no `data: ` lines. -/
theorem c3_fallback_recovery_witness :
    ∃ pre, (runGen true [.chunk ("\x7b\"answer\":\" hello \"\x7d".toList)]).output =
        pre ++ [.fallbackText (trimStr " hello ".toList)] ∧
      (runGen true [.chunk ("\x7b\"answer\":\" hello \"\x7d".toList)]).output.countP
        isFallbackEvt = 1 ∧
      (runGen true [.chunk ("\x7b\"answer\":\" hello \"\x7d".toList)]).closed = true :=
  (c3_fallback_recovery true [.chunk ("\x7b\"answer\":\" hello \"\x7d".toList)]).2
    (.obj [("answer".toList, .str " hello ".toList)]) (" hello ".toList)
    (by intro s hs; rw [show (runGen true [.chunk ("\x7b\"answer\":\" hello \"\x7d".toList)]).output
          = [.fallbackText ("hello".toList)] from rfl] at hs; simp at hs)
    rfl rfl

/-- C8: Sequence-counter monotonicity — across one whole normalizer
invocation, the indices carried by the emitted intermediate-step
markers are exactly `0, 1, …, N-1` in emission order; dropped malformed
frames do not consume an index. -/
theorem c8_counter_monotonic (fl : Bool) (evts : List ReadEvt) :
    (runGen fl evts).output.filterMap stepIdx =
      List.range ((runGen fl evts).output.filterMap stepIdx).length := by
  obtain ⟨b, st', hrun, ⟨es, hout, hdata, hfb⟩, hcnt, ⟨more, hsc⟩, hterm⟩ :=
    runGo_spec fl evts ⟨[], [], 0, []⟩ init_buf_inv
  have hrg : runGen fl evts = finalizeGen b st' := hrun
  have hst : st'.out.filterMap stepIdx = List.range st'.counter := hcnt rfl
  have hmain : (runGen fl evts).output.filterMap stepIdx = List.range st'.counter := by
    rcases finalizeGen_out_cases b st' with hc | ⟨v, hc⟩
    · rw [hrg, hc, hst]
    · rw [hrg, hc, List.filterMap_append, hst]
      simp [stepIdx]
  rw [hmain, List.length_range]

/-- C4: Terminator precedence and immediate close — a complete line
whose `data: ` payload trims to `[DONE]` is dispatched as the
terminator (never as a data event), and once a chunk's processing hits
it the stream result is fixed immediately: the remaining events are
never read, no further chunk is emitted (the fallback cannot emit on a
closed stream), and the output stream is closed. -/
theorem c4_terminator_precedence (fl : Bool) :
    (∀ counter line, startsWithStr dataTagL line = true →
      trimStr (line.drop 5) = doneTokL →
      stepLine fl counter line = .terminate) ∧
    (∀ st chunk rest, (processChunk fl st chunk).2 = true →
      runGenGo fl st (.chunk chunk :: rest) =
        ⟨(processChunk fl st chunk).1.out,
          (processChunk fl st chunk).1.streamContent, true, false⟩) := by
  constructor
  · intro counter line h1 h2
    unfold stepLine
    rw [if_pos h1]
    dsimp only
    rw [if_pos h2]
  · intro st chunk rest hpc
    have hgo : runGenGo fl st (.chunk chunk :: rest)
        = finalizeGen true (processChunk fl st chunk).1 := by
      show (match processChunk fl st chunk with
        | (st', true) => finalizeGen true st'
        | (st', false) => runGenGo fl st' rest) = _
      rcases hx : processChunk fl st chunk with ⟨st1, b1⟩
      rw [hx] at hpc
      cases hpc
      rfl
    rw [hgo]
    have hob := finalizeGen_closedAlready (processChunk fl st chunk).1
    unfold finalizeGen at hob ⊢
    exact congrArg (fun o => RunRes.mk o _ true false) hob

/-- Witness for C4: the [DONE] line classifies as terminator, and a
stream carrying it closes with no further output, leaving the pending
events unread. -/
theorem c4_terminator_precedence_witness :
    stepLine true 0 ("data: [DONE]".toList) = .terminate ∧
    runGenGo true ⟨[], [], 0, []⟩
        [.chunk ("data: [DONE]\ndata: \x7b\"value\":\"zz\"\x7d\n".toList),
          .chunk ("data: \x7b\"value\":\"w\"\x7d\n".toList)] =
      ⟨(processChunk true ⟨[], [], 0, []⟩
          ("data: [DONE]\ndata: \x7b\"value\":\"zz\"\x7d\n".toList)).1.out,
        (processChunk true ⟨[], [], 0, []⟩
          ("data: [DONE]\ndata: \x7b\"value\":\"zz\"\x7d\n".toList)).1.streamContent,
        true, false⟩ :=
  ⟨(c4_terminator_precedence true).1 0 ("data: [DONE]".toList) rfl rfl,
    (c4_terminator_precedence true).2 ⟨[], [], 0, []⟩
      ("data: [DONE]\ndata: \x7b\"value\":\"zz\"\x7d\n".toList)
      [.chunk ("data: \x7b\"value\":\"w\"\x7d\n".toList)] rfl⟩

/-- C6 (code bug): on the terminator exit path the reader lock is
released zero times, not once — `controller.close()` at chat.ts line
101 makes the unconditional `controller.close()` at line 161 inside the
`finally` block throw a `TypeError`, so `reader?.releaseLock()` at line
162 is never reached. On the natural-end and mid-stream-error exit
paths the lock is released exactly once, as the claim states. -/
theorem c6_release_on_terminator_path :
    (runGen true [.chunk ("data: [DONE]\n".toList)]).released = false ∧
    (runGen true [.chunk ("data: \x7b\"value\":\"x\"\x7d\n".toList)]).released = true ∧
    (runGen true [.chunk ("data: \x7b\"value\":\"x\"\x7d\n".toList), .readError]).released
      = true :=
  ⟨rfl, rfl, rfl⟩

/-- C7: Malformed-frame resilience — a `data: ` or `intermediate_data: `
line whose payload fails to parse as JSON is dropped silently (no
output, no error, counter untouched, stream continues), and the
three-line stream with a bad middle line emits exactly the text `xy`. -/
theorem c7_malformed_frame_dropped (fl : Bool) :
    (∀ counter line, startsWithStr dataTagL line = true →
      trimStr (line.drop 5) ≠ doneTokL →
      parseJson (line.drop 5) = none →
      stepLine fl counter line = .events [] counter) ∧
    (∀ counter line, startsWithStr dataTagL line = false →
      (containsSeq tagOpenL line && containsSeq tagCloseL line && fl) = false →
      startsWithStr imTagL line = true →
      parseJson (imPayload line) = none →
      stepLine fl counter line = .events [] counter) ∧
    ((runGen true [.chunk ("data: \x7b\"value\":\"x\"\x7d\ndata: \x7bnot valid json\ndata: \x7b\"value\":\"y\"\x7d\n".toList)]).output
        = [.dataText ['x'], .dataText ['y']] ∧
      (((runGen true [.chunk ("data: \x7b\"value\":\"x\"\x7d\ndata: \x7bnot valid json\ndata: \x7b\"value\":\"y\"\x7d\n".toList)]).output.map
          renderEvt).flatten) = "xy".toList) := by
  refine ⟨?_, ?_, rfl, rfl⟩
  · intro counter line h1 h2 hp
    unfold stepLine
    rw [if_pos h1]
    dsimp only
    rw [if_neg h2, hp]
  · intro counter line h1 h2 h3 hp
    unfold stepLine
    rw [if_neg (by simp [h1]), if_neg (by simp [h2]), if_pos h3, hp]

/-- Witness for C7 at concrete malformed lines. -/
theorem c7_malformed_frame_dropped_witness :
    stepLine true 0 ("data: \x7bnot valid json".toList) = .events [] 0 ∧
    stepLine true 0 ("intermediate_data: \x7bbad".toList) = .events [] 0 :=
  ⟨(c7_malformed_frame_dropped true).1 0 ("data: \x7bnot valid json".toList)
      rfl (by decide) rfl,
    (c7_malformed_frame_dropped true).2.1 0 ("intermediate_data: \x7bbad".toList)
      rfl rfl rfl rfl⟩

/-- C10: Prefix-slicing equivalence — for every line beginning with
`data: `, the source's `line.slice(5)` (which keeps the space of the
six-character prefix in the payload) yields exactly the same dispatch
result as the spec-side variant that strips the full six-character
prefix, because the sentinel comparison trims the payload and JSON
parsing skips leading whitespace. -/
theorem c10_slice_equivalence (fl : Bool) (counter : Nat) (line : List Char)
    (h : startsWithStr dataTagL line = true) :
    stepLine fl counter line = stepLineDropSix fl counter line := by
  obtain ⟨r, hr⟩ := startsWithStr_exists h
  subst hr
  have hdrop5 : (dataTagL ++ r).drop 5 = ' ' :: r := rfl
  have hdrop6 : (dataTagL ++ r).drop 6 = r := rfl
  have htrim : trimStr (' ' :: r) = trimStr r := rfl
  have hparse : parseJson (' ' :: r) = parseJson r := by
    unfold parseJson
    rfl
  unfold stepLine stepLineDropSix
  rw [if_pos h, if_pos h]
  dsimp only
  rw [hdrop5, hdrop6, htrim, hparse]

/-- Witness for C10 at a concrete `data: ` line. -/
theorem c10_slice_equivalence_witness :
    stepLine true 0 ("data: \x7b\"value\":\"q\"\x7d".toList) =
      stepLineDropSix true 0 ("data: \x7b\"value\":\"q\"\x7d".toList) :=
  c10_slice_equivalence true 0 ("data: \x7b\"value\":\"q\"\x7d".toList) rfl

/-- C9 counterexample: a parseable `intermediate_data: ` line whose JSON
payload is the string `"<intermediatestep></intermediatestep>"` contains
both inline tags, so with the flag enabled the generate-stream
normalizer forwards the raw line verbatim instead of encoding it — the
claim that every parseable `intermediate_data: ` line is encoded
regardless of the flag fails on this input, and the flag changes the
result. -/
theorem c9_counterexample :
    parseJson (imPayload ("intermediate_data: \"<intermediatestep></intermediatestep>\"".toList))
      = some (.str (tagOpenL ++ tagCloseL)) ∧
    stepLine true 0 ("intermediate_data: \"<intermediatestep></intermediatestep>\"".toList)
      = .events [.tagged ("intermediate_data: \"<intermediatestep></intermediatestep>\"".toList)] 0 ∧
    (∀ i p, OutEvt.step i p ∉
      [OutEvt.tagged ("intermediate_data: \"<intermediatestep></intermediatestep>\"".toList)]) ∧
    stepLine false 0 ("intermediate_data: \"<intermediatestep></intermediatestep>\"".toList)
      = .events [.step 0 (.str (tagOpenL ++ tagCloseL))] 1 := by
  refine ⟨rfl, rfl, ?_, rfl⟩
  intro i p hmem
  simp at hmem

/-- C9 (amended): a parseable `intermediate_data: ` line that does not
contain both inline tags is encoded and forwarded by the generate-stream
normalizer regardless of the `enableIntermediateSteps` flag, whereas the
chat-stream normalizer forwards it only when the flag is set. -/
theorem c9_flag_asymmetry (flag : Bool) (counter : Nat) (line : List Char)
    (p : Json)
    (him : startsWithStr imTagL line = true)
    (hnt : ¬(containsSeq tagOpenL line = true ∧ containsSeq tagCloseL line = true))
    (hp : parseJson (imPayload line) = some p) :
    stepLine flag counter line = .events [.step counter p] (counter + 1) ∧
    stepLineChat true counter line = .events [.step counter p] (counter + 1) ∧
    stepLineChat false counter line = .events [] counter := by
  have hnd := im_not_data him
  have hcc : (containsSeq tagOpenL line && containsSeq tagCloseL line && flag) = false := by
    cases ho : containsSeq tagOpenL line with
    | false => simp [ho]
    | true =>
      cases hc2 : containsSeq tagCloseL line with
      | false => simp [hc2]
      | true => exact absurd ⟨ho, hc2⟩ hnt
  refine ⟨?_, ?_, ?_⟩
  · unfold stepLine
    rw [if_neg (by simp [hnd]), if_neg (by simp [hcc]), if_pos him, hp]
  · unfold stepLineChat
    rw [if_neg (by simp [hnd]), if_pos (by simp [him]), hp]
  · unfold stepLineChat
    rw [if_neg (by simp [hnd]), if_neg (by simp)]

/-- Witness for C9 (amended) at a concrete telemetry line. -/
theorem c9_flag_asymmetry_witness :
    stepLine false 0 ("intermediate_data: \x7b\"id\":\"7\"\x7d".toList) =
      .events [.step 0 (.obj [("id".toList, .str ['7'])])] 1 ∧
    stepLineChat true 0 ("intermediate_data: \x7b\"id\":\"7\"\x7d".toList) =
      .events [.step 0 (.obj [("id".toList, .str ['7'])])] 1 ∧
    stepLineChat false 0 ("intermediate_data: \x7b\"id\":\"7\"\x7d".toList) =
      .events [] 0 :=
  c9_flag_asymmetry false 0 ("intermediate_data: \x7b\"id\":\"7\"\x7d".toList)
    (.obj [("id".toList, .str ['7'])]) rfl
    (fun hc => absurd hc.1 (by decide)) rfl

/-- Witness for C2 at a concrete input and two concrete partitions. -/
theorem c2_line_buffer_witness :
    bufferRun ["ab\nc".toList, "d\ne".toList] [] =
      bufferRun ["a".toList, [], "b\ncd\ne".toList] [] ∧
    (∀ l ∈ (bufferRun ["ab\nc".toList, "d\ne".toList] []).1, '\n' ∉ l) ∧
    ((bufferRun ["ab\nc".toList, "d\ne".toList] []).1.map (· ++ ['\n'])).flatten
        ++ (bufferRun ["ab\nc".toList, "d\ne".toList] []).2 = "ab\ncd\ne".toList :=
  c2_line_buffer "ab\ncd\ne".toList _ _ rfl rfl

/-- C5 counterexample: on the payload
`\x7b"choices":[\x7b"delta":\x7b"content":"d"\x7d\x7d]\x7d` the
generate-stream extraction chain yields `"d"` via
`choices[0].delta.content`, but the chat-style variant (`processChat`)
does not consult `delta.content` at all: none of its named fields match,
so it falls through to the stringified parsed object — the claim that
the chat variant uses the same named fields fails on this input. -/
theorem c5_counterexample :
    (parseJson ("\x7b\"choices\":[\x7b\"delta\":\x7b\"content\":\"d\"\x7d\x7d]\x7d".toList)).bind
        extractGenContent = some (.str ['d']) ∧
    chatContent ("\x7b\"choices\":[\x7b\"delta\":\x7b\"content\":\"d\"\x7d\x7d]\x7d".toList)
      = "\x7b\"choices\":[\x7b\"delta\":\x7b\"content\":\"d\"\x7d\x7d]\x7d".toList ∧
    "\x7b\"choices\":[\x7b\"delta\":\x7b\"content\":\"d\"\x7d\x7d]\x7d".toList ≠ ['d'] :=
  ⟨rfl, rfl, by decide⟩

/-- C5 (amended): the generate-stream extraction chain returns the first
truthy candidate in the fixed order `value`, `output`, `answer`,
`choices[0].message.content`, `choices[0].delta.content` (so
`\x7bvalue:"a", output:"b"\x7d` yields `"a"` and
`\x7boutput:"b", answer:"c"\x7d` yields `"b"`); the chat-style variant
(`processChat`) uses the different order `output`, `answer`, `value`,
`choices[0].message.content` — with no `delta.content` candidate — and
additionally falls back to the stringified parsed object, or to the raw
text when parsing fails. -/
theorem c5_extractor_field_preference :
    ((parseJson ("\x7b\"value\":\"a\",\"output\":\"b\"\x7d".toList)).bind extractGenContent
        = some (.str ['a'])) ∧
    ((parseJson ("\x7b\"output\":\"b\",\"answer\":\"c\"\x7d".toList)).bind extractGenContent
        = some (.str ['b'])) ∧
    (∀ p v, jGet p "value".toList = some v → jTruthy v = true →
      extractGenContent p = some v) ∧
    (∀ p v, (∀ w, jGet p "value".toList = some w → jTruthy w = false) →
      jGet p "output".toList = some v → jTruthy v = true →
      extractGenContent p = some v) ∧
    (∀ raw p s, parseJson raw = some p →
      firstTruthy [jGet p "output".toList, jGet p "answer".toList,
        jGet p "value".toList, choicesMsg p] = some (.str s) →
      chatContent raw = s) ∧
    (∀ raw p, parseJson raw = some p →
      firstTruthy [jGet p "output".toList, jGet p "answer".toList,
        jGet p "value".toList, choicesMsg p] = none →
      jTruthy p = true → (∀ s, p ≠ .str s) →
      chatContent raw = stringifyJson p) ∧
    (∀ raw, parseJson raw = none → chatContent raw = raw) := by
  refine ⟨rfl, rfl, ?_, ?_, ?_, ?_, ?_⟩
  · intro p v hv ht
    unfold extractGenContent
    rw [hv]
    exact firstTruthy_cons_truthy ht _
  · intro p v hskip hv ht
    unfold extractGenContent
    rw [firstTruthy_cons_skip _ _ hskip, hv]
    exact firstTruthy_cons_truthy ht _
  · intro raw p s hp hft
    unfold chatContent
    rw [hp]
    dsimp only
    rw [hft]
  · intro raw p hp hft ht hne
    unfold chatContent
    rw [hp]
    dsimp only
    rw [hft]
    dsimp only
    rw [if_pos ht]
    cases p with
    | str s => exact absurd rfl (hne s)
    | null => rfl
    | boolean b => rfl
    | num lex => rfl
    | arr xs => rfl
    | obj fs => rfl
  · intro raw h
    unfold chatContent
    rw [h]

/-- Witness for C5 (amended) at concrete payloads. -/
theorem c5_extractor_field_preference_witness :
    extractGenContent (.obj [("answer".toList, .str ['c']),
        ("value".toList, .str ['a'])]) = some (.str ['a']) ∧
    chatContent ("\x7bnot json".toList) = "\x7bnot json".toList :=
  ⟨c5_extractor_field_preference.2.2.1
      (.obj [("answer".toList, .str ['c']), ("value".toList, .str ['a'])])
      (.str ['a']) rfl rfl,
    c5_extractor_field_preference.2.2.2.2.2.2 ("\x7bnot json".toList) rfl⟩

/-- C1 counterexample: on the claimed three-line backend stream the
intermediate-step record's `content.name` is not the default `"Step"` —
the encoder uses the raw payload's top-level `name` field, which here is
`"Searching"`, so no payload consistent with the emitted output has
`content.name = "Step"`. -/
theorem c1_counterexample :
    ¬∃ p, (runGen true [.chunk ("data: \x7b\"value\":\"Hi\"\x7d\nintermediate_data: \x7b\"id\":\"1\",\"name\":\"Searching\"\x7d\ndata: [DONE]\n".toList)]).output
        = [.dataText "Hi".toList, .step 0 p] ∧
      (jGet (intermediateMessage p 0) "content".toList).bind
          (fun c => jGet c "name".toList) = some (.str "Step".toList) := by
  rintro ⟨p, hout, hname⟩
  have hconc : (runGen true [.chunk ("data: \x7b\"value\":\"Hi\"\x7d\nintermediate_data: \x7b\"id\":\"1\",\"name\":\"Searching\"\x7d\ndata: [DONE]\n".toList)]).output
      = [.dataText "Hi".toList,
          .step 0 (.obj [("id".toList, .str ['1']),
            ("name".toList, .str "Searching".toList)])] := rfl
  rw [hconc] at hout
  simp only [List.cons.injEq, OutEvt.dataText.injEq, OutEvt.step.injEq,
    and_true, true_and] at hout
  rw [← hout] at hname
  have hval : (jGet (intermediateMessage
      (.obj [("id".toList, .str ['1']),
        ("name".toList, .str "Searching".toList)]) 0) "content".toList).bind
      (fun c => jGet c "name".toList) = some (.str "Searching".toList) := rfl
  rw [hval] at hname
  have h1 := Option.some.inj hname
  have h2 : "Searching".toList = "Step".toList := by injection h1
  exact absurd (congrArg List.length h2) (by decide)

/-- C1 (amended): for the chat request with
`enableIntermediateSteps = true` and the backend stream
`data: \x7b"value":"Hi"\x7d` · `intermediate_data:
\x7b"id":"1","name":"Searching"\x7d` · `data: [DONE]`, the normalized
output is the text `"Hi"` followed by exactly one inline
`<intermediatestep>` marker wrapping a record with `index` 0, `id` `"1"`
and `content.name` `"Searching"` (the payload's top-level `name` is
used; the default `"Step"` applies only when `name` is absent), and the
output stream is closed by the terminator. -/
theorem c1_end_to_end :
    (runGen true [.chunk ("data: \x7b\"value\":\"Hi\"\x7d\nintermediate_data: \x7b\"id\":\"1\",\"name\":\"Searching\"\x7d\ndata: [DONE]\n".toList)]).output
      = [.dataText "Hi".toList,
          .step 0 (.obj [("id".toList, .str ['1']),
            ("name".toList, .str "Searching".toList)])] ∧
    ((runGen true [.chunk ("data: \x7b\"value\":\"Hi\"\x7d\nintermediate_data: \x7b\"id\":\"1\",\"name\":\"Searching\"\x7d\ndata: [DONE]\n".toList)]).output.filterMap
        stepIdx) = [0] ∧
    renderEvt (.step 0 (.obj [("id".toList, .str ['1']),
        ("name".toList, .str "Searching".toList)]))
      = tagOpenL ++ stringifyJson (intermediateMessage
          (.obj [("id".toList, .str ['1']),
            ("name".toList, .str "Searching".toList)]) 0) ++ tagCloseL ∧
    (jGet (intermediateMessage (.obj [("id".toList, .str ['1']),
        ("name".toList, .str "Searching".toList)]) 0) "content".toList).bind
        (fun c => jGet c "name".toList) = some (.str "Searching".toList) ∧
    jGet (intermediateMessage (.obj [("id".toList, .str ['1']),
        ("name".toList, .str "Searching".toList)]) 0) "id".toList
      = some (.str ['1']) ∧
    jGet (intermediateMessage (.obj [("id".toList, .str ['1']),
        ("name".toList, .str "Searching".toList)]) 0) "index".toList
      = some (.num ['0']) ∧
    (runGen true [.chunk ("data: \x7b\"value\":\"Hi\"\x7d\nintermediate_data: \x7b\"id\":\"1\",\"name\":\"Searching\"\x7d\ndata: [DONE]\n".toList)]).closed
      = true :=
  ⟨rfl, rfl, rfl, rfl, rfl, rfl, rfl⟩

end ColorBot
